import Mathlib

/-! Light client: test-fixture signing helpers and the `init` command.

A shallow embedding of `certifiers/helper.go` and `commands/init.go`.

* Byte strings are lists of naturals, Go `int` values are `Int`, Go `int64`
  arithmetic wraps explicitly.
* The cryptographic and encoding primitives of the libraries the code links
  against (`go-crypto`, tendermint `types`) are taken as a parameter `Deps`.
* Indexing a slice out of range panics in Go; the embedding returns `none`.
-/

namespace LightClient

/-! ## Data model -/

/-- A byte string (`[]byte`). -/
abbrev Bytes := List Nat

/-- Block identifier, `types.BlockID`: the hash of the header voted for. -/
structure BlockID where
  Hash : Bytes
  deriving DecidableEq, Repr

/-- Validator record, `types.Validator`. -/
structure Validator where
  Address : Bytes
  PubKey : Bytes
  VotingPower : Int
  deriving DecidableEq, Repr

/-- Validator set, `types.ValidatorSet`: validators in index order. -/
structure ValidatorSet where
  Validators : List Validator
  deriving DecidableEq, Repr

/-- Vote record, `types.Vote`; `VoteType` is the Go field `Type`. -/
structure Vote where
  ValidatorAddress : Bytes
  ValidatorIndex : Int
  Height : Int
  Round : Int
  VoteType : Nat
  BlockID : BlockID
  Signature : Bytes
  deriving DecidableEq, Repr

/-- Commit record, `types.Commit`: one optional vote per validator index. -/
structure Commit where
  BlockID : BlockID
  Precommits : List (Option Vote)
  deriving DecidableEq, Repr

/-- Block header, `types.Header`. `LastBlockID` and `LastCommitHash` keep their
zero value in everything `GenHeader` builds. -/
structure Header where
  ChainID : String
  Height : Int
  Time : Nat
  NumTxs : Int
  LastBlockID : BlockID
  LastCommitHash : Bytes
  DataHash : Bytes
  ValidatorsHash : Bytes
  AppHash : Bytes
  deriving DecidableEq, Repr

/-- The unit of trust exchange, `certifiers.Seed`: header, commit and
validator set. -/
structure Seed where
  Header : Header
  Commit : Commit
  Validators : ValidatorSet
  deriving DecidableEq, Repr

/-- Primitives of the linked libraries, taken as parameters:
`PrivKey.PubKey`, `PubKey.Address`, `PrivKey.Sign`, `PubKey.VerifyBytes`,
the canonical vote encoding behind `types.SignBytes`, and the digests
`Header.Hash`, `ValidatorSet.Hash`, `Txs.Hash`. -/
structure Deps where
  pubKey : Bytes → Bytes
  address : Bytes → Bytes
  sign : Bytes → Bytes → Bytes
  verifyBytes : Bytes → Bytes → Bytes → Bool
  canonical : String → Int → Int → Nat → BlockID → Bytes
  headerHash : Header → Bytes
  valSetHash : ValidatorSet → Bytes
  txsHash : List Bytes → Bytes

/-- Signing is correct: a signature made by a private key verifies under the
matching public key. -/
def Deps.SignCorrect (d : Deps) : Prop :=
  ∀ key msg, d.verifyBytes (d.pubKey key) msg (d.sign key msg) = true

/-- The address of a private key: the address of its public key,
`key.PubKey().Address()`. -/
def Deps.keyAddress (d : Deps) (key : Bytes) : Bytes := d.address (d.pubKey key)

/-- The constant `types.VoteTypePrecommit`. -/
def VoteTypePrecommit : Nat := 2

/-- Two's-complement wrap of an integer into the `int64` range. -/
def wrapInt64 (x : Int) : Int := (x + 2 ^ 63) % 2 ^ 64 - 2 ^ 63

/-! ## Library operations of tendermint `types` -/

/-- Lexicographic comparison of byte strings, `bytes.Compare`. -/
def bytesCompare : Bytes → Bytes → Ordering
  | [], [] => Ordering.eq
  | [], _ :: _ => Ordering.lt
  | _ :: _, [] => Ordering.gt
  | a :: as, b :: bs =>
    if a < b then Ordering.lt else if b < a then Ordering.gt else bytesCompare as bs

/-- Address order used to arrange a validator set. -/
def addrLE (a b : Validator) : Prop := bytesCompare a.Address b.Address ≠ Ordering.gt

instance addrLE_decidable : DecidableRel addrLE :=
  fun a b => inferInstanceAs (Decidable (bytesCompare a.Address b.Address ≠ Ordering.gt))

/-- Modelled from the spec: `types.NewValidator` of the tendermint library
(not under src/). A validator is its public key, its voting power and the
address derived from the public key. -/
def NewValidator (d : Deps) (pubKey : Bytes) (votingPower : Int) : Validator :=
  { Address := d.address pubKey, PubKey := pubKey, VotingPower := votingPower }

/-- Modelled from the spec: `types.NewValidatorSet` of the tendermint library
(not under src/). The spec requires an order that is a deterministic function
of the construction; the library arranges the validators by ascending address,
which is what is done here. -/
def NewValidatorSet (vals : List Validator) : ValidatorSet :=
  { Validators := vals.insertionSort addrLE }

/-- Modelled from the spec: `ValidatorSet.GetByAddress` of the tendermint
library (not under src/). Searches the address-ordered sequence for the first
validator whose address is not below `address`; returns its index and the
validator when the address matches, and `(0, nil)` otherwise. -/
def ValidatorSet.GetByAddress (vs : ValidatorSet) (address : Bytes) : Int × Option Validator :=
  let idx := vs.Validators.findIdx (fun val => decide (bytesCompare address val.Address ≠ Ordering.gt))
  match vs.Validators.get? idx with
  | some val => if val.Address = address then ((idx : Int), some val) else (0, none)
  | none => (0, none)

/-- Modelled from the spec: `ValidatorSet.TotalVotingPower`, the sum of the
members' powers. -/
def ValidatorSet.TotalVotingPower (vs : ValidatorSet) : Int :=
  (vs.Validators.map Validator.VotingPower).sum

/-- Modelled from the spec: `types.SignBytes`. The signature covers the
canonical encoding of chain id, height, round, vote type and block id. -/
def SignBytes (d : Deps) (chainID : String) (vote : Vote) : Bytes :=
  d.canonical chainID vote.Height vote.Round vote.VoteType vote.BlockID

/-- Failure kinds of the quorum check. -/
inductive VerifyError where
  | CommitMismatch
  | InsufficientVotingPower (signed total : Int)
  deriving DecidableEq, Repr

/-- Modelled from the spec: the per-slot test of section 4.1. A present vote at
index `i` counts when its validator index is `i`, its height and block id are
the expected ones, and its signature verifies under the public key of
validator `i` over the canonical sign-bytes. -/
def voteCounts (d : Deps) (chainID : String) (blockID : BlockID) (height : Int)
    (i : Nat) (val : Validator) (vote : Vote) : Bool :=
  decide (vote.ValidatorIndex = (i : Int)) && decide (vote.Height = height) &&
    decide (vote.BlockID = blockID) &&
    d.verifyBytes val.PubKey (d.canonical chainID height vote.Round VoteTypePrecommit blockID)
      vote.Signature

/-- Modelled from the spec: what slot `i` adds to `signed_power` in section
4.1: the power of validator `i` when the vote is present and counts, nothing
when it is absent or invalid. -/
def slotPower (d : Deps) (chainID : String) (blockID : BlockID) (height : Int)
    (i : Nat) (val : Validator) : Option Vote → Int
  | some vote => if voteCounts d chainID blockID height i val vote then val.VotingPower else 0
  | none => 0

/-- Modelled from the spec: `signed_power` of section 4.1, accumulated over the
slots from index `i` on. -/
def signedPower (d : Deps) (chainID : String) (blockID : BlockID) (height : Int) :
    Nat → List Validator → List (Option Vote) → Int
  | _, [], _ => 0
  | _, _ :: _, [] => 0
  | i, val :: vals, slot :: slots =>
    slotPower d chainID blockID height i val slot +
      signedPower d chainID blockID height (i + 1) vals slots

/-- Modelled from the spec: `VerifyCommit` of section 4.1 (the operation lives
in the tendermint library, not under src/). The slot count must equal the set
size; success is the strict supermajority `3 * signed > 2 * total`. -/
def VerifyCommit (d : Deps) (vs : ValidatorSet) (chainID : String) (blockID : BlockID)
    (height : Int) (commit : Commit) : Except VerifyError Unit :=
  if commit.Precommits.length ≠ vs.Validators.length then
    Except.error VerifyError.CommitMismatch
  else
    let signed := signedPower d chainID blockID height 0 vs.Validators commit.Precommits
    let total := vs.TotalVotingPower
    if 3 * signed > 2 * total then Except.ok ()
    else Except.error (VerifyError.InsufficientVotingPower signed total)

/-! ## `certifiers/helper.go` -/

/-- The key list `ValKeys`: private keys used to simulate signing. -/
abbrev ValKeys := List Bytes

/-- The loop of `ToValidators`: key number `i` gets power `init + int64(i) * inc`
in `int64` arithmetic. -/
def toValidatorsFrom (d : Deps) (init inc : Int) : Nat → List Bytes → List Validator
  | _, [] => []
  | i, k :: ks =>
    NewValidator d (d.pubKey k) (wrapInt64 (init + (i : Int) * inc)) ::
      toValidatorsFrom d init inc (i + 1) ks

/-- `ValKeys.ToValidators`: one validator per key, the first of weight `init`,
each next one `inc` more. -/
def ValKeys.ToValidators (d : Deps) (v : ValKeys) (init inc : Int) : List Validator :=
  toValidatorsFrom d init inc 0 v

/-- `makeVote`: the precommit of `key` for `header`, placed at the index the
validator set gives to the key's address, signed over the canonical
sign-bytes. -/
def makeVote (d : Deps) (header : Header) (vals : ValidatorSet) (key : Bytes) : Vote :=
  let addr := d.address (d.pubKey key)
  let idx := (vals.GetByAddress addr).1
  let vote : Vote :=
    { ValidatorAddress := addr
      ValidatorIndex := idx
      Height := header.Height
      Round := 1
      VoteType := VoteTypePrecommit
      BlockID := { Hash := d.headerHash header }
      Signature := [] }
  let signBytes := SignBytes d header.ChainID vote
  { vote with Signature := d.sign key signBytes }

/-- The loop of `SignHeader`, `for i := first; i < last; i++`, with `n`
iterations left. Reading `v[i]` or writing `votes[vote.ValidatorIndex]`
out of range panics: `none`. -/
def signLoop (d : Deps) (header : Header) (vset : ValidatorSet) (v : ValKeys) :
    Nat → Int → List (Option Vote) → Option (List (Option Vote))
  | 0, _, votes => some votes
  | n + 1, i, votes =>
    if i < 0 ∨ (v.length : Int) ≤ i then none
    else
      match v.get? i.toNat with
      | none => none
      | some key =>
        let vote := makeVote d header vset key
        if vote.ValidatorIndex < 0 ∨ (votes.length : Int) ≤ vote.ValidatorIndex then none
        else signLoop d header vset v n (i + 1) (votes.set vote.ValidatorIndex.toNat (some vote))

/-- One pass of the loop body of `SignHeader` seen as a function on the votes:
the vote of `key` is written into the slot of its validator index. -/
def placeVote (d : Deps) (header : Header) (vset : ValidatorSet)
    (votes : List (Option Vote)) (key : Bytes) : List (Option Vote) :=
  votes.set (makeVote d header vset key).ValidatorIndex.toNat
    (some (makeVote d header vset key))

/-- `ValKeys.SignHeader`: signs the header with the keys from `first` to `last`
exclusive. The slot order is that of the validator set built with power 1. -/
def ValKeys.SignHeader (d : Deps) (v : ValKeys) (header : Header) (first last : Int) :
    Option Commit :=
  let votes : List (Option Vote) := List.replicate v.length none
  let vals := v.ToValidators d 1 0
  let vset := NewValidatorSet vals
  match signLoop d header vset v (last - first).toNat first votes with
  | none => none
  | some votes => some { BlockID := { Hash := d.headerHash header }, Precommits := votes }

/-- `GenHeader`: a header for the given chain, height, transactions, validators
and application hash; `now` is the reading of `time.Now()`. -/
def GenHeader (d : Deps) (now : Nat) (chainID : String) (height : Int) (txs : List Bytes)
    (vals : List Validator) (appHash : Bytes) : Header :=
  { ChainID := chainID
    Height := height
    Time := now
    NumTxs := (txs.length : Int)
    LastBlockID := { Hash := [] }
    LastCommitHash := []
    ValidatorsHash := d.valSetHash (NewValidatorSet vals)
    DataHash := d.txsHash txs
    AppHash := appHash }

/-- A toy instance of the primitives, for evaluating the definitions: the
public key is the first byte of the private key, the address is the public
key, and a signature is the public key followed by the message. -/
def toyDeps : Deps :=
  { pubKey := fun k => k.take 1
    address := fun p => p
    sign := fun k msg => k.take 1 ++ msg
    verifyBytes := fun p msg sig => decide (sig = p ++ msg)
    canonical := fun chainID height round voteType blockID =>
      chainID.length :: height.toNat :: round.toNat :: voteType :: blockID.Hash
    headerHash := fun h => [h.ChainID.length, h.Height.toNat, h.Time] ++ h.ValidatorsHash
    valSetHash := fun vs => vs.Validators.map (fun val => val.Address.sum + val.VotingPower.toNat)
    txsHash := fun txs => txs.map List.sum }

/-! ## A model of the file system under `os` -/

/-- A path as its list of components, from the file-system root. -/
abbrev Path := List String

/-- A node of the file tree: a regular file with its content, or a directory
with its named entries. -/
inductive Node where
  | file (content : String)
  | dir (entries : List (String × Node))

/-- Error numbers the modelled system calls report. -/
inductive Errno where
  | ENOENT
  | ENOTDIR
  | EEXIST
  | EISDIR
  | ENOTEMPTY
  | EINVAL
  deriving DecidableEq, Repr

/-- Values of Go's `error` that the commands produce or pass on. -/
inductive Err where
  | errno (e : Errno)
  | eof
  | alreadyInited (root : Path)
  | flagRequired (flag : String)
  | hexInvalidByte (c : Char)
  | hexLength
  | hashMismatch (seedHash : Bytes)
  | invalidValidatorHash
  | collaborator (msg : String)
  deriving DecidableEq, Repr

/-- `os.IsNotExist`: the error is the not-exists error. The nil error is not. -/
def IsNotExist : Option Err → Bool
  | some (Err.errno Errno.ENOENT) => true
  | _ => false

/-- Path resolution: the node a path names. Passing through a regular file is
`ENOTDIR`, a missing component is `ENOENT`. -/
def Node.walk : Node → Path → Except Errno Node
  | n, [] => Except.ok n
  | Node.file _, _ :: _ => Except.error Errno.ENOTDIR
  | Node.dir es, c :: rest =>
    match es.lookup c with
    | none => Except.error Errno.ENOENT
    | some child => child.walk rest

/-- `os.Stat`: the error, if any, of resolving the path. -/
def osStat (fs : Node) (p : Path) : Option Err :=
  match fs.walk p with
  | Except.ok _ => none
  | Except.error e => some (Err.errno e)

/-- `os.Open`: a handle on the node the path names (files and directories
both open), or the error of resolving it. -/
def osOpen (fs : Node) (p : Path) : Except Err Node :=
  match fs.walk p with
  | Except.ok n => Except.ok n
  | Except.error e => Except.error (Err.errno e)

/-- `File.Readdirnames(n)` for `n > 0`: at most `n` entry names; an empty
directory gives no name and `io.EOF`; a handle that is not a directory gives
an error. -/
def Readdirnames (handle : Node) (n : Nat) : List String × Option Err :=
  match handle with
  | Node.file _ => ([], some (Err.errno Errno.ENOTDIR))
  | Node.dir [] => ([], some Err.eof)
  | Node.dir (e :: es) => (((e :: es).map Prod.fst).take n, none)

/-- `os.MkdirAll`: creates the directory and every missing parent; an existing
directory is left alone; a regular file in the way stops it (the error is not
modelled, no caller reads it). -/
def Node.mkdirAll : Node → Path → Node
  | n, [] => n
  | Node.file content, _ :: _ => Node.file content
  | Node.dir es, c :: rest =>
    match es.lookup c with
    | none => Node.dir (es ++ [(c, (Node.dir []).mkdirAll rest)])
    | some _ =>
      Node.dir (es.map (fun e => if e.1 = c then (e.1, e.2.mkdirAll rest) else e))

/-- `os.RemoveAll`: removes the path and everything below it; a path that
does not resolve is left as it is. The root itself only loses its entries. -/
def Node.removeAll : Node → Path → Node
  | Node.file content, _ => Node.file content
  | Node.dir _, [] => Node.dir []
  | Node.dir es, [c] => Node.dir (es.filter (fun e => e.1 ≠ c))
  | Node.dir es, c :: c2 :: rest =>
    Node.dir (es.map (fun e => if e.1 = c then (e.1, e.2.removeAll (c2 :: rest)) else e))

/-- `os.Mkdir`: creates one directory; the parent must be an existing
directory and the name must be free, else nothing changes. -/
def Node.mkdir : Node → Path → Node
  | n, [] => n
  | Node.file content, _ :: _ => Node.file content
  | Node.dir es, [c] =>
    match es.lookup c with
    | none => Node.dir (es ++ [(c, Node.dir [])])
    | some _ => Node.dir es
  | Node.dir es, c :: c2 :: rest =>
    Node.dir (es.map (fun e => if e.1 = c then (e.1, e.2.mkdir (c2 :: rest)) else e))

/-- Puts `n` at the path, replacing what is there; the parent must be an
existing directory, else nothing changes. -/
def Node.put (n : Node) : Node → Path → Node
  | t, [] => t
  | Node.file content, _ :: _ => Node.file content
  | Node.dir es, [c] =>
    match es.lookup c with
    | none => Node.dir (es ++ [(c, n)])
    | some _ => Node.dir (es.map (fun e => if e.1 = c then (e.1, n) else e))
  | Node.dir es, c :: c2 :: rest =>
    Node.dir (es.map (fun e => if e.1 = c then (e.1, Node.put n e.2 (c2 :: rest)) else e))

/-- Whether the node may be replaced by a rename of `src`: a file over a file,
a directory over an empty directory. -/
def Node.replaceableBy : Node → Node → Bool
  | Node.file _, Node.file _ => true
  | Node.dir [], Node.dir _ => true
  | _, _ => false

/-- Whether `p` is an initial segment of `q`. -/
def Path.isInitialOf : Path → Path → Bool
  | [], _ => true
  | _ :: _, [] => false
  | a :: p, b :: q => decide (a = b) && Path.isInitialOf p q

/-- `os.Rename`: moves the node at `old` to `new`. Nothing changes when `old`
does not resolve, when `new` lies at or below `old`, when the parent of `new`
is not an existing directory, or when the node at `new` may not be replaced. -/
def osRename (fs : Node) (old new : Path) : Node :=
  match fs.walk old with
  | Except.error _ => fs
  | Except.ok n =>
    if Path.isInitialOf old new ∨ new = [] then fs
    else
      match fs.walk new.dropLast with
      | Except.ok (Node.dir _) =>
        match fs.walk new with
        | Except.ok target =>
          if target.replaceableBy n then Node.put n (fs.removeAll old) new else fs
        | Except.error _ => Node.put n (fs.removeAll old) new
      | _ => fs

/-- `os.Create` followed by writing `content`: the parent must be an existing
directory and the path must not name a directory. -/
def osCreate (fs : Node) (p : Path) (content : String) : Except Err Node :=
  if p = [] then Except.error (Err.errno Errno.EISDIR)
  else
    match fs.walk p.dropLast with
    | Except.error e => Except.error (Err.errno e)
    | Except.ok (Node.file _) => Except.error (Err.errno Errno.ENOTDIR)
    | Except.ok (Node.dir _) =>
      match fs.walk p with
      | Except.ok (Node.dir _) => Except.error (Err.errno Errno.EISDIR)
      | _ => Except.ok (Node.put (Node.file content) fs p)

/-! ## `commands/init.go` -/

/-- The constant `ConfigFile`. -/
def ConfigFile : String := "config.toml"

/-- One result of `fmt.Scanln(&resp)` on standard input: an error, or one
token read. -/
inductive Scan where
  | failed
  | token (resp : String)
  deriving DecidableEq, Repr

/-- Calls the init flow makes to its collaborators, in order. -/
inductive Call where
  | print (text : String)
  | latestSeed
  | loadSeed (file : String)
  | validateBasic (seed : Seed) (chain : String)
  | seedHash (seed : Seed)
  | decodeString (s : String)
  | scanln
  | storeSeed (seed : Seed)
  deriving DecidableEq, Repr

/-- The struct `Config` written to the configuration file. -/
structure Config where
  Chain : String
  Node : String
  Output : String
  Encoding : String
  deriving DecidableEq, Repr

/-- Flags the init command reads. -/
inductive Flag where
  | chain
  | node
  | output
  | encoding
  deriving DecidableEq, Repr

/-- What the init flow takes from outside `init.go`: flag values (`viper`,
`cmd.Flags()`), the constants `files.CheckDir` and `files.ValDir`, the flag
names, the random temporary path of `resetRoot`, and the collaborators
`certifiers.LatestSeed`, `certifiers.LoadSeed`, `Seed.ValidateBasic`,
`Seed.Hash` and the TOML encoder. -/
structure InitEnv where
  home : Path
  forceReset : Bool
  seedFile : String
  valhash : String
  flagName : Flag → String
  flagValue : Flag → String
  changed : Flag → Bool
  CheckDir : String
  ValDir : String
  tmp : Path
  latestSeed : Except Err Seed
  loadSeed : String → Except Err Seed
  validateBasic : Seed → String → Option Err
  seedHash : Seed → Bytes
  tomlEncode : Config → Except Err String

/-- The value of one hexadecimal digit, `fromHexChar`. -/
def fromHexChar (c : Char) : Option Nat :=
  if '0' ≤ c ∧ c ≤ '9' then some (c.toNat - '0'.toNat)
  else if 'a' ≤ c ∧ c ≤ 'f' then some (c.toNat - 'a'.toNat + 10)
  else if 'A' ≤ c ∧ c ≤ 'F' then some (c.toNat - 'A'.toNat + 10)
  else none

/-- `hex.DecodeString` on the characters of the string: the bytes decoded so
far and the error, if any (an invalid character, or an odd length). -/
def hexDecode : List Char → Bytes × Option Err
  | [] => ([], none)
  | [p] =>
    match fromHexChar p with
    | none => ([], some (Err.hexInvalidByte p))
    | some _ => ([], some Err.hexLength)
  | p :: q :: rest =>
    match fromHexChar p with
    | none => ([], some (Err.hexInvalidByte p))
    | some a =>
      match fromHexChar q with
      | none => ([], some (Err.hexInvalidByte q))
      | some b => ((a * 16 + b) :: (hexDecode rest).1, (hexDecode rest).2)

/-- Upper-case hexadecimal rendering of a byte string, the verb `%X`. -/
def fmtHex (b : Bytes) : String :=
  let digit (n : Nat) : Char := "0123456789ABCDEF".toList.getD n '0'
  String.mk (b.flatMap (fun x => [digit (x / 16 % 16), digit (x % 16)]))

/-- `strings.ToLower`, on the ASCII letters. No character outside ASCII
lower-cases to a letter of the answers compared against, so the comparisons
of `askForConfirmation` come out the same. -/
def ToLower (s : String) : String := String.mk (s.toList.map Char.toLower)

/-- The re-prompt line of `askForConfirmation`. -/
def pleaseType : String := "Please type yes or no and then press enter:"

/-- `askForConfirmation`: reads answers until one is yes or no. Returns the
answer, the unread input and the calls made; `none` when the input runs out
first, where every further `Scanln` fails and the recursion never returns. -/
def askForConfirmation : List Scan → Option (Bool × List Scan × List Call)
  | [] => none
  | Scan.failed :: rest =>
    match askForConfirmation rest with
    | none => none
    | some (b, left, calls) => some (b, left, Call.scanln :: Call.print pleaseType :: calls)
  | Scan.token resp :: rest =>
    let resp := ToLower resp
    if resp = "y" ∨ resp = "yes" then some (true, rest, [Call.scanln])
    else if resp = "n" ∨ resp = "no" then some (false, rest, [Call.scanln])
    else
      match askForConfirmation rest with
      | none => none
      | some (b, left, calls) => some (b, left, Call.scanln :: Call.print pleaseType :: calls)

/-- What a run leaves behind: the calls made, the unread input, and the value
returned (`none`: the run never returns; `some none`: nil; `some (some e)`:
the error `e`). -/
structure Run where
  calls : List Call
  stdin : List Scan
  ret : Option (Option Err)
  deriving DecidableEq, Repr

/-- `validateHash`: shows the seed's hash and asks the user to confirm it. -/
def validateHash (env : InitEnv) (seed : Seed) (stdin : List Scan) : Run :=
  let shown : List Call :=
    [Call.print "\nImportant: if this is incorrect, all interaction with the chain will be insecure!",
     Call.seedHash seed,
     Call.print ("  Given validator hash valid: " ++ fmtHex (env.seedHash seed)),
     Call.print "Is this valid (y/n)?"]
  match askForConfirmation stdin with
  | none => { calls := shown, stdin := [], ret := none }
  | some (valid, left, calls) =>
    if !valid then
      { calls := shown ++ calls, stdin := left, ret := some (some Err.invalidValidatorHash) }
    else { calls := shown ++ calls, stdin := left, ret := some none }

/-- The first step of `initSeed`: the seed comes from the node when no seed
file is given, from the file otherwise. The calls made and the result. -/
def loadSeedStep (env : InitEnv) : List Call × Except Err Seed :=
  if env.seedFile = "" then
    ([Call.print "Loading validator set from tendermint rpc...", Call.latestSeed],
      env.latestSeed)
  else
    ([Call.print ("Loading validators from file " ++ env.seedFile),
      Call.loadSeed env.seedFile], env.loadSeed env.seedFile)

/-- `initSeed`: loads a seed from the file or the node, checks it with
`ValidateBasic`, has its hash confirmed by `--valhash` or by the user, and
only then stores it. -/
def initSeed (env : InitEnv) (stdin : List Scan) : Run :=
  let load := loadSeedStep env
  match load.2 with
  | Except.error err => { calls := load.1, stdin := stdin, ret := some (some err) }
  | Except.ok seed =>
    let chain := env.flagValue Flag.chain
    let calls := load.1 ++ [Call.validateBasic seed chain]
    match env.validateBasic seed chain with
    | some err => { calls := calls, stdin := stdin, ret := some (some err) }
    | none =>
      let hash := env.valhash
      let checked : Run :=
        if hash ≠ "" then
          let decoded := hexDecode hash.toList
          match decoded.2 with
          | some err =>
            { calls := calls ++ [Call.decodeString hash], stdin := stdin, ret := some (some err) }
          | none =>
            if decoded.1 ≠ env.seedHash seed then
              { calls := calls ++ [Call.decodeString hash, Call.seedHash seed]
                stdin := stdin
                ret := some (some (Err.hashMismatch (env.seedHash seed))) }
            else
              { calls := calls ++ [Call.decodeString hash, Call.seedHash seed]
                stdin := stdin
                ret := some none }
        else
          let asked := validateHash env seed stdin
          { asked with calls := calls ++ asked.calls }
      match checked.ret with
      | some none =>
        { checked with calls := checked.calls ++ [Call.storeSeed seed], ret := some none }
      | _ => checked

/-- `isEmpty`: whether no file can be read in the directory. -/
def isEmpty (fs : Node) (dir : Path) : Bool × Option Err :=
  let opened := osOpen fs dir
  match opened with
  | Except.error err =>
    if IsNotExist (some err) then (true, none) else (false, some err)
  | Except.ok d =>
    let read := Readdirnames d 5
    if read.2 = some Err.eof then (true, none)
    else
      match read.2 with
      | some err => (false, some err)
      | none => (decide (read.1.length = 0), none)

/-- The loop of `WasInited` over the data directories: the first directory
that cannot be read or is empty decides. -/
def anyEmpty (fs : Node) : List Path → Option (Bool × Option Err)
  | [] => none
  | d :: ds =>
    match isEmpty fs d with
    | (_, some err) => some (false, some err)
    | (true, none) => some (false, none)
    | (false, none) => anyEmpty fs ds

/-- `WasInited`: whether a light client was initialised in `root` before. Makes
sure the directory exists; returns the file system it leaves, and the result. -/
def WasInited (env : InitEnv) (fs : Node) (root : Path) : Node × Bool × Option Err :=
  let fs := fs.mkdirAll root
  let cfgFile := root ++ ["config.toml"]
  let err := osStat fs cfgFile
  if IsNotExist err then (fs, false, none)
  else
    match err with
    | some err => (fs, false, some err)
    | none =>
      let dirs := [root ++ [env.CheckDir], root ++ [env.ValDir]]
      match anyEmpty fs dirs with
      | some res => (fs, res)
      | none => (fs, true, none)

/-- State of a run of the command: the file system, the unread input and the
calls made so far. -/
structure World where
  fs : Node
  stdin : List Scan
  calls : List Call

/-- `resetRoot`: wipes the root directory, keeping the `keys` directory aside
when `saveKeys` is set. Every error of the system calls is dropped. -/
def resetRoot (env : InitEnv) (w : World) (root : Path) (saveKeys : Bool) : World :=
  let tmp := env.tmp
  let keys := root ++ ["keys"]
  let fs := if saveKeys then osRename w.fs keys tmp else w.fs
  let calls := w.calls ++ [Call.print "Bye, bye data... wiping it all clean!"]
  let fs := fs.removeAll root
  let fs := if saveKeys then osRename (fs.mkdir root) tmp keys else fs
  { w with fs := fs, calls := calls }

/-- `setConfig`: the flag's value when the flag was given, else the old one. -/
def setConfig (env : InitEnv) (f : Flag) (v : String) : String :=
  if env.changed f then env.flagValue f else v

/-- `initConfigFile`: requires the chain and node flags and writes the
configuration file under the home directory. -/
def initConfigFile (env : InitEnv) (fs : Node) : Node × Option Err :=
  match [Flag.chain, Flag.node].find? (fun f => !env.changed f) with
  | some f => (fs, some (Err.flagRequired (env.flagName f)))
  | none =>
    let cfg : Config :=
      { Chain := setConfig env Flag.chain ""
        Node := setConfig env Flag.node ""
        Output := setConfig env Flag.output ""
        Encoding := setConfig env Flag.encoding "" }
    match osCreate fs (env.home ++ [ConfigFile]) "" with
    | Except.error err => (fs, some err)
    | Except.ok created =>
      match env.tomlEncode cfg with
      | Except.error err => (created, some err)
      | Except.ok text => (Node.put (Node.file text) created (env.home ++ [ConfigFile]), none)

/-- `doInit`: refuses an initialised root, then writes the configuration file
and initialises the seed. The result is the world left and the value
returned, as in `Run`. -/
def doInit (env : InitEnv) (w : World) (root : Path) : World × Option (Option Err) :=
  let inited := WasInited env w.fs root
  let w := { w with fs := inited.1 }
  match inited.2.2 with
  | some err => (w, some (some err))
  | none =>
    if inited.2.1 then (w, some (some (Err.alreadyInited root)))
    else
      let cfg := initConfigFile env w.fs
      let w := { w with fs := cfg.1 }
      match cfg.2 with
      | some err => (w, some (some err))
      | none =>
        let run := initSeed env w.stdin
        ({ w with stdin := run.stdin, calls := w.calls ++ run.calls }, run.ret)

/-- `runInit`: resets the root first when `--force-reset` is given, runs
`doInit`, and cleans the directory up when that returned an error. -/
def runInit (env : InitEnv) (w : World) : World × Option (Option Err) :=
  let root := env.home
  let w := if env.forceReset then resetRoot env w root true else w
  let res := doInit env w root
  match res.2 with
  | none => (res.1, none)
  | some none => (res.1, some none)
  | some (some err) => (resetRoot env res.1 root true, some (some err))

/-! ## Predicates on the file tree, and concrete inputs for evaluating the definitions -/

/-- Whether the path resolves in the file tree. -/
def Node.has (fs : Node) (p : Path) : Bool :=
  match fs.walk p with
  | Except.ok _ => true
  | Except.error _ => false

/-- Whether the path names a directory with at least one entry. -/
def Node.hasEntries (fs : Node) (p : Path) : Bool :=
  match fs.walk p with
  | Except.ok (Node.dir (_ :: _)) => true
  | _ => false

/-- Whether opening the directory or reading its names fails with an error
other than not-exists (and other than the end-of-directory mark). -/
def readFault (fs : Node) (p : Path) : Bool :=
  match osOpen fs p with
  | Except.error err => !IsNotExist (some err)
  | Except.ok d =>
    match (Readdirnames d 5).2 with
    | some err => decide (err ≠ Err.eof)
    | none => false

/-- Whether a file-system error other than not-exists occurs in the calls
`WasInited` makes: in the `Stat` of the configuration file, or, once that
exists, in opening or reading the checkpoints directory, or, once that has
entries, in opening or reading the validators directory. -/
def otherErrorOccurs (env : InitEnv) (fs : Node) (root : Path) : Bool :=
  match osStat fs (root ++ ["config.toml"]) with
  | some err => !IsNotExist (some err)
  | none =>
    readFault fs (root ++ [env.CheckDir]) ||
      (fs.hasEntries (root ++ [env.CheckDir]) && readFault fs (root ++ [env.ValDir]))

/-- A seed to run the init flow on. -/
def demoSeed : Seed :=
  { Header := GenHeader toyDeps 7 "c" 5 [] [] []
    Commit := { BlockID := { Hash := [] }, Precommits := [] }
    Validators := { Validators := [] } }

/-- An environment of the init command: home `lc`, all flags given, the node
serves `demoSeed` whose hash is `ABCD`, no `--valhash`, no `--force-reset`. -/
def demoEnv : InitEnv :=
  { home := ["lc"]
    forceReset := false
    seedFile := ""
    valhash := ""
    flagName := fun f =>
      match f with
      | Flag.chain => "chain-id"
      | Flag.node => "node"
      | Flag.output => "output"
      | Flag.encoding => "encoding"
    flagValue := fun _ => "c"
    changed := fun _ => true
    CheckDir := "checkpoints"
    ValDir := "validators"
    tmp := ["tmp", "r"]
    latestSeed := Except.ok demoSeed
    loadSeed := fun _ => Except.error (Err.collaborator "no such file")
    validateBasic := fun _ _ => none
    seedHash := fun _ => [171, 205]
    tomlEncode := fun c => Except.ok c.Chain }

/-- A file tree with an initialised client under `lc` (configuration file,
one checkpoint, one validator record, one key) and an empty `tmp`. -/
def demoFs : Node :=
  Node.dir
    [("lc", Node.dir
      [("config.toml", Node.file "chain-id = c"),
       ("checkpoints", Node.dir [("1", Node.file "seed")]),
       ("validators", Node.dir [("h", Node.file "vals")]),
       ("keys", Node.dir [("k", Node.file "secret")])]),
     ("tmp", Node.dir [])]

/-- The environment `demoEnv` with `--valhash ABCE`, which is valid hex and
decodes to bytes other than the seed's hash. -/
def demoEnvWrongHash : InitEnv := { demoEnv with valhash := "ABCE" }

/-- The environment `demoEnv` with a `ValidateBasic` that rejects every seed. -/
def demoEnvMalformed : InitEnv :=
  { demoEnv with validateBasic := fun _ _ => some (Err.collaborator "wrong chain") }

/-- The power a validator brings to a commit signed by the keys that have the
given addresses: its own power if its address is among them, else nothing. -/
def signedShare (signers : List Bytes) (val : Validator) : Int :=
  if val.Address ∈ signers then val.VotingPower else 0

/-- Four keys with pairwise distinct addresses under `toyDeps`. -/
def demoKeys : ValKeys := [[3], [1], [4], [2]]

/-- A header generated for the validators of `demoKeys`, each of power 1. -/
def demoHeader : Header :=
  GenHeader toyDeps 7 "c" 5 [] (demoKeys.ToValidators toyDeps 1 0) []

/-- Two distinct keys with the same public key, hence the same address, under
`toyDeps`. -/
def twinKeys : ValKeys := [[3, 0], [3, 1]]

/-- A header generated for the validators of `twinKeys`, each of power 1. -/
def twinHeader : Header :=
  GenHeader toyDeps 7 "c" 5 [] (twinKeys.ToValidators toyDeps 1 0) []

/-! # Properties -/

/-! ## `initSeed`: the gates before `StoreSeed` -/

/-- Answering the confirmation prompt never calls `StoreSeed`. -/
theorem storeSeed_not_mem_ask : ∀ (stdin : List Scan) (b : Bool) (left : List Scan) (calls : List Call),
    askForConfirmation stdin = some (b, left, calls) → ∀ s, Call.storeSeed s ∉ calls := by
  intro stdin
  induction stdin with
  | nil => intro b left calls h; simp [askForConfirmation] at h
  | cons x rest ih =>
    intro b left calls h s
    cases x with
    | failed =>
      simp only [askForConfirmation] at h
      cases hr : askForConfirmation rest with
      | none => simp [hr] at h
      | some r =>
        obtain ⟨b2, left2, calls2⟩ := r
        simp [hr] at h
        obtain ⟨_, _, rfl⟩ := h
        simp [ih b2 left2 calls2 hr s]
    | token resp =>
      simp only [askForConfirmation] at h
      split_ifs at h with h1 h2
      · simp at h; obtain ⟨_, _, rfl⟩ := h; simp
      · simp at h; obtain ⟨_, _, rfl⟩ := h; simp
      · cases hr : askForConfirmation rest with
        | none => simp [hr] at h
        | some r =>
          obtain ⟨b2, left2, calls2⟩ := r
          simp [hr] at h
          obtain ⟨_, _, rfl⟩ := h
          simp [ih b2 left2 calls2 hr s]

/-- Loading the seed never calls `StoreSeed`. -/
theorem storeSeed_not_mem_load (env : InitEnv) (s : Seed) : Call.storeSeed s ∉ (loadSeedStep env).1 := by
  unfold loadSeedStep
  split_ifs <;> simp

/-- C1: in `initSeed`, for a loaded seed that passes `ValidateBasic` and a
non-empty `--valhash`: when the value is not valid hex, or decodes to bytes
other than `seed.Hash()`, `initSeed` returns a non-nil error and `StoreSeed`
is never called. -/
theorem initSeed_valhash_mismatch_rejected (env : InitEnv) (stdin : List Scan) (seed : Seed)
    (hload : (loadSeedStep env).2 = Except.ok seed)
    (hvalid : env.validateBasic seed (env.flagValue Flag.chain) = none)
    (hflag : env.valhash ≠ "")
    (hbad : (hexDecode env.valhash.toList).2 ≠ none ∨
      (hexDecode env.valhash.toList).1 ≠ env.seedHash seed) :
    (∃ err, (initSeed env stdin).ret = some (some err)) ∧
      ∀ s, Call.storeSeed s ∉ (initSeed env stdin).calls := by
  have hl := storeSeed_not_mem_load env
  unfold initSeed
  simp only [hload, hvalid, hflag, ne_eq, not_false_eq_true, if_true]
  cases hd : (hexDecode env.valhash.toList).2 with
  | some err => simp [hl]
  | none =>
    have hne : (hexDecode env.valhash.toList).1 ≠ env.seedHash seed := by
      rcases hbad with h | h
      · exact absurd hd h
      · exact h
    have hne2 : ¬ (hexDecode env.valhash.data).1 = env.seedHash seed := hne
    simp [hne2, hl]


/-- C1, at `--valhash ABCE` against a seed whose hash is `ABCD`. -/
theorem initSeed_valhash_mismatch_rejected_witness :
    (∃ err, (initSeed demoEnvWrongHash []).ret = some (some err)) ∧
      ∀ s, Call.storeSeed s ∉ (initSeed demoEnvWrongHash []).calls :=
  initSeed_valhash_mismatch_rejected demoEnvWrongHash [] demoSeed rfl rfl (by decide)
    (Or.inr (by decide))

/-- C2: in `initSeed`, for a seed from either source: `StoreSeed` is called
only if `ValidateBasic` returned no error; when `ValidateBasic` fails,
`initSeed` returns that error, and the calls it made are the load and
`ValidateBasic` alone: no hash is read or compared, nothing is asked or read
from the input, and `StoreSeed` is not called. -/
theorem initSeed_validateBasic_gate (env : InitEnv) (stdin : List Scan) :
    ((∃ s, Call.storeSeed s ∈ (initSeed env stdin).calls) →
        ∃ seed, (loadSeedStep env).2 = Except.ok seed ∧
          env.validateBasic seed (env.flagValue Flag.chain) = none) ∧
      ∀ seed err, (loadSeedStep env).2 = Except.ok seed →
        env.validateBasic seed (env.flagValue Flag.chain) = some err →
        (initSeed env stdin).ret = some (some err) ∧
          (initSeed env stdin).stdin = stdin ∧
          (initSeed env stdin).calls =
            (loadSeedStep env).1 ++ [Call.validateBasic seed (env.flagValue Flag.chain)] := by
  have hl := storeSeed_not_mem_load env
  constructor
  · rintro ⟨s, hs⟩
    cases hload : (loadSeedStep env).2 with
    | error e =>
      exfalso
      simp [initSeed, hload] at hs
      exact hl s hs
    | ok seed =>
      refine ⟨seed, rfl, ?_⟩
      cases hv : env.validateBasic seed (env.flagValue Flag.chain) with
      | none => rfl
      | some e =>
        exfalso
        simp [initSeed, hload, hv] at hs
        exact hl s hs
  · intro seed err hload hv
    simp [initSeed, hload, hv]

/-- C2, at an environment whose `ValidateBasic` rejects the seed. -/
theorem initSeed_validateBasic_gate_witness :
    (initSeed demoEnvMalformed [Scan.token "yes"]).ret =
        some (some (Err.collaborator "wrong chain")) ∧
      (initSeed demoEnvMalformed [Scan.token "yes"]).stdin = [Scan.token "yes"] ∧
      (initSeed demoEnvMalformed [Scan.token "yes"]).calls =
        (loadSeedStep demoEnvMalformed).1 ++
          [Call.validateBasic demoSeed (demoEnvMalformed.flagValue Flag.chain)] :=
  (initSeed_validateBasic_gate demoEnvMalformed [Scan.token "yes"]).2 demoSeed
    (Err.collaborator "wrong chain") rfl rfl

/-- Without `--valhash`, `initSeed` on a valid seed returns what `validateHash`
returns, and calls `StoreSeed` last exactly when that is nil. -/
theorem initSeed_no_valhash (env : InitEnv) (stdin : List Scan) (seed : Seed)
    (hload : (loadSeedStep env).2 = Except.ok seed)
    (hvalid : env.validateBasic seed (env.flagValue Flag.chain) = none)
    (hflag : env.valhash = "") :
    (initSeed env stdin).ret = (validateHash env seed stdin).ret ∧
      (initSeed env stdin).calls =
        (loadSeedStep env).1 ++ [Call.validateBasic seed (env.flagValue Flag.chain)] ++
          (validateHash env seed stdin).calls ++
          (if (validateHash env seed stdin).ret = some none then [Call.storeSeed seed] else []) := by
  unfold initSeed
  simp only [hload, hvalid, hflag, ne_eq, not_true_eq_false, if_false]
  cases hr : (validateHash env seed stdin).ret with
  | none => simp [hr]
  | some r =>
    cases r with
    | none => simp [hr]
    | some e => simp [hr]

/-- The confirmation step `validateHash` never calls `StoreSeed`. -/
theorem storeSeed_not_mem_validateHash (env : InitEnv) (seed : Seed) (stdin : List Scan) (s : Seed) :
    Call.storeSeed s ∉ (validateHash env seed stdin).calls := by
  unfold validateHash
  cases h : askForConfirmation stdin with
  | none => simp
  | some r =>
    obtain ⟨b, left, calls⟩ := r
    have := storeSeed_not_mem_ask stdin b left calls h s
    cases b <;> simp [this]

/-- What `validateHash` returns, by the answer of `askForConfirmation`. -/
theorem validateHash_ret (env : InitEnv) (seed : Seed) (stdin : List Scan) :
    (validateHash env seed stdin).ret =
      match askForConfirmation stdin with
      | none => none
      | some (true, _, _) => some none
      | some (false, _, _) => some (some Err.invalidValidatorHash) := by
  unfold validateHash
  cases h : askForConfirmation stdin with
  | none => rfl
  | some r =>
    obtain ⟨b, left, calls⟩ := r
    cases b <;> rfl

/-- An answer that lower-cases to `n` or `no` is a refusal. -/
theorem askForConfirmation_no (resp : String) (rest : List Scan)
    (h : ToLower resp = "n" ∨ ToLower resp = "no") :
    askForConfirmation (Scan.token resp :: rest) = some (false, rest, [Call.scanln]) := by
  have h1 : ¬ (ToLower resp = "y" ∨ ToLower resp = "yes") := by
    rcases h with h | h <;> rw [h] <;> decide
  simp [askForConfirmation, h1, h]

/-- C3: in `initSeed` with no `--valhash`, for a valid seed: `StoreSeed` is
called if and only if the interactive confirmation answers yes; when the
confirmation answers no, `validateHash` returns an ordinary non-nil error,
`initSeed` returns it and `StoreSeed` is not called; and an answer `n` or
`no`, in any letter case, is such a refusal. -/
theorem initSeed_confirmation_gate (env : InitEnv) (stdin : List Scan) (seed : Seed)
    (hload : (loadSeedStep env).2 = Except.ok seed)
    (hvalid : env.validateBasic seed (env.flagValue Flag.chain) = none)
    (hflag : env.valhash = "") :
    ((∃ s, Call.storeSeed s ∈ (initSeed env stdin).calls) ↔
        ∃ left calls, askForConfirmation stdin = some (true, left, calls)) ∧
      (∀ left calls, askForConfirmation stdin = some (false, left, calls) →
        (validateHash env seed stdin).ret = some (some Err.invalidValidatorHash) ∧
          (initSeed env stdin).ret = some (some Err.invalidValidatorHash) ∧
          ∀ s, Call.storeSeed s ∉ (initSeed env stdin).calls) ∧
      ∀ resp rest, stdin = Scan.token resp :: rest →
        (ToLower resp = "n" ∨ ToLower resp = "no") →
        askForConfirmation stdin = some (false, rest, [Call.scanln]) := by
  obtain ⟨hret, hcalls⟩ := initSeed_no_valhash env stdin seed hload hvalid hflag
  have hl := storeSeed_not_mem_load env
  have hv := storeSeed_not_mem_validateHash env seed stdin
  have hvr := validateHash_ret env seed stdin
  refine ⟨?_, ?_, ?_⟩
  · constructor
    · rintro ⟨s, hs⟩
      rw [hcalls] at hs
      cases ha : askForConfirmation stdin with
      | none =>
        rw [ha] at hvr
        simp [hvr, hl, hv] at hs
      | some r =>
        obtain ⟨b, left, calls⟩ := r
        cases b with
        | true => exact ⟨left, calls, rfl⟩
        | false =>
          rw [ha] at hvr
          simp [hvr, hl, hv] at hs
    · rintro ⟨left, calls, ha⟩
      rw [ha] at hvr
      refine ⟨seed, ?_⟩
      rw [hcalls]
      simp [hvr]
  · intro left calls ha
    rw [ha] at hvr
    refine ⟨hvr, by rw [hret, hvr], ?_⟩
    intro s hs
    rw [hcalls] at hs
    simp [hvr, hl, hv] at hs
  · intro resp rest hs hno
    rw [hs]
    exact askForConfirmation_no resp rest hno

/-- C3, at the answer `No`: the refusal is returned as an error and nothing is
stored. -/
theorem initSeed_confirmation_gate_witness :
    (validateHash demoEnv demoSeed [Scan.token "No"]).ret =
        some (some Err.invalidValidatorHash) ∧
      (initSeed demoEnv [Scan.token "No"]).ret = some (some Err.invalidValidatorHash) ∧
      ∀ s, Call.storeSeed s ∉ (initSeed demoEnv [Scan.token "No"]).calls :=
  (initSeed_confirmation_gate demoEnv [Scan.token "No"] demoSeed rfl rfl rfl).2.1 []
    [Call.scanln] (by decide)

/-! ## `WasInited`, `isEmpty` and `runInit` on the file system -/

/-- The result of `isEmpty`, by what the path resolves to. -/
theorem isEmpty_walk (fs : Node) (dir : Path) :
    isEmpty fs dir =
      match fs.walk dir with
      | Except.ok (Node.dir (_ :: _)) => (false, none)
      | Except.ok (Node.dir []) => (true, none)
      | Except.ok (Node.file _) => (false, some (Err.errno Errno.ENOTDIR))
      | Except.error Errno.ENOENT => (true, none)
      | Except.error e => (false, some (Err.errno e)) := by
  unfold isEmpty osOpen
  cases h : fs.walk dir with
  | error e => cases e <;> simp [IsNotExist]
  | ok n =>
    cases n with
    | file c => simp [Readdirnames]
    | dir es =>
      cases es with
      | nil => simp [Readdirnames]
      | cons e es => simp [Readdirnames]

/-- C10, the code at the failing input: the doc comment of `isEmpty` says that
read issues return true, but on a path that names a regular file (the
directory opens, reading its names fails) and on a path that runs through a
regular file (opening fails with an error other than not-exists) `isEmpty`
returns `false` together with the error, not `(true, nil)`. -/
theorem isEmpty_other_error_returns_error :
    (∃ d, osOpen demoFs ["lc", "config.toml"] = Except.ok d ∧
        (Readdirnames d 5).2 = some (Err.errno Errno.ENOTDIR)) ∧
      isEmpty demoFs ["lc", "config.toml"] = (false, some (Err.errno Errno.ENOTDIR)) ∧
      isEmpty demoFs ["lc", "config.toml"] ≠ (true, none) ∧
      osOpen demoFs ["lc", "config.toml", "x"] = Except.error (Err.errno Errno.ENOTDIR) ∧
      isEmpty demoFs ["lc", "config.toml", "x"] = (false, some (Err.errno Errno.ENOTDIR)) ∧
      isEmpty demoFs ["lc", "config.toml", "x"] ≠ (true, none) :=
  ⟨⟨Node.file "chain-id = c", rfl, rfl⟩, by decide, by decide, rfl, by decide, by decide⟩

/-- C4, the code at the failing input: on an initialised root and without
`--force-reset`, `runInit` returns the already-initialised error and has wiped
the configuration file and the checkpoints and validators directories (the
keys are kept). -/
theorem runInit_wipes_initialised_root :
    demoEnv.forceReset = false ∧
      (WasInited demoEnv demoFs demoEnv.home).2 = (true, none) ∧
      (runInit demoEnv { fs := demoFs, stdin := [], calls := [] }).2 =
        some (some (Err.alreadyInited ["lc"])) ∧
      (runInit demoEnv { fs := demoFs, stdin := [], calls := [] }).1.fs.has
        ["lc", "config.toml"] = false ∧
      (runInit demoEnv { fs := demoFs, stdin := [], calls := [] }).1.fs.has
        ["lc", "checkpoints"] = false ∧
      (runInit demoEnv { fs := demoFs, stdin := [], calls := [] }).1.fs.has
        ["lc", "validators"] = false ∧
      (runInit demoEnv { fs := demoFs, stdin := [], calls := [] }).1.fs.has
        ["lc", "keys", "k"] = true := by
  decide

/-- Looking up a name appended to a directory that did not have it. -/
theorem lookup_append_single (es : List (String × Node)) (c : String) (n : Node)
    (h : es.lookup c = none) : (es ++ [(c, n)]).lookup c = some n := by
  induction es with
  | nil => simp [List.lookup]
  | cons e es ih =>
    obtain ⟨k, x⟩ := e
    rw [List.cons_append, List.lookup_cons]
    rw [List.lookup_cons] at h
    cases hk : c == k with
    | true => simp only [hk] at h; exact absurd h (by simp)
    | false => simp only [hk] at h ⊢; exact ih h

/-- Looking up the name whose entry was rewritten in place. -/
theorem lookup_map_update (es : List (String × Node)) (c : String) (f : Node → Node) :
    (es.map (fun e => if e.1 = c then (e.1, f e.2) else e)).lookup c =
      (es.lookup c).map f := by
  induction es with
  | nil => simp [List.lookup]
  | cons e es ih =>
    obtain ⟨k, x⟩ := e
    by_cases hk : k = c
    · subst hk
      simp only [List.map_cons, if_true, List.lookup_cons, beq_self_eq_true, Option.map]
    · have hb : (c == k) = false := by simpa using fun h => hk h.symm
      simp only [List.map_cons, hk, if_false, List.lookup_cons, hb]
      exact ih

/-- Nothing resolves below an empty directory. -/
theorem walk_empty_dir (x : String) (p : Path) :
    (Node.dir []).walk (x :: p) = Except.error Errno.ENOENT := by
  simp [Node.walk, List.lookup]

/-- Frame property of `MkdirAll`: what lies strictly below the directory it
makes sure of resolves as before. -/
theorem walk_mkdirAll (root : Path) : ∀ (fs : Node) (x : String) (p : Path),
    (fs.mkdirAll root).walk (root ++ x :: p) = fs.walk (root ++ x :: p) := by
  induction root with
  | nil => intro fs x p; simp [Node.mkdirAll]
  | cons c rest ih =>
    intro fs x p
    cases fs with
    | file content => simp [Node.mkdirAll]
    | dir es =>
      cases hl : es.lookup c with
      | none =>
        simp only [Node.mkdirAll, hl, List.cons_append, Node.walk]
        rw [lookup_append_single es c _ hl]
        simp only
        rw [ih]
        cases rest with
        | nil => exact walk_empty_dir x p
        | cons r rs => exact walk_empty_dir r _
      | some child =>
        simp only [Node.mkdirAll, hl, List.cons_append, Node.walk]
        rw [lookup_map_update es c (fun n => n.mkdirAll rest), hl]
        simp only [Option.map]
        exact ih child x p


/-- After `MkdirAll(root)`, `Stat` of an entry of `root` is as before. -/
theorem osStat_mkdirAll (fs : Node) (root : Path) (x : String) :
    osStat (fs.mkdirAll root) (root ++ [x]) = osStat fs (root ++ [x]) := by
  unfold osStat
  rw [walk_mkdirAll]

/-- After `MkdirAll(root)`, `isEmpty` of an entry of `root` is as before. -/
theorem isEmpty_mkdirAll (fs : Node) (root : Path) (x : String) :
    isEmpty (fs.mkdirAll root) (root ++ [x]) = isEmpty fs (root ++ [x]) := by
  rw [isEmpty_walk, isEmpty_walk, walk_mkdirAll]

/-- C9: in every file-system state in which no file-system error other than
not-exists occurs, `WasInited(root)` returns `(true, nil)` if and only if
`root/config.toml` exists and both the checkpoints and the validators
directory exist with at least one entry, and `(false, nil)` otherwise; it
returns a non-nil error only when (indeed exactly when) such an error
occurs. -/
theorem WasInited_spec (env : InitEnv) (fs : Node) (root : Path) :
    (otherErrorOccurs env fs root = false →
      (WasInited env fs root).2 =
        (fs.has (root ++ ["config.toml"]) && fs.hasEntries (root ++ [env.CheckDir]) &&
          fs.hasEntries (root ++ [env.ValDir]), none)) ∧
      ((WasInited env fs root).2.2 ≠ none ↔ otherErrorOccurs env fs root = true) := by
  unfold WasInited otherErrorOccurs readFault
  simp only [osStat_mkdirAll, anyEmpty, isEmpty_mkdirAll, isEmpty_walk, walk_mkdirAll]
  unfold osStat osOpen Node.has Node.hasEntries
  cases h0 : fs.walk (root ++ ["config.toml"]) with
  | error e => cases e <;> simp [IsNotExist]
  | ok n0 =>
    simp only [IsNotExist]
    cases h1 : fs.walk (root ++ [env.CheckDir]) with
    | error e => cases e <;> simp [IsNotExist]
    | ok n1 =>
      cases n1 with
      | file c => simp [Readdirnames, IsNotExist]
      | dir es =>
        cases es with
        | nil => simp [Readdirnames, IsNotExist]
        | cons e1 es1 =>
          cases h2 : fs.walk (root ++ [env.ValDir]) with
          | error e => cases e <;> simp [Readdirnames, IsNotExist]
          | ok n2 =>
            cases n2 with
            | file c => simp [Readdirnames, IsNotExist]
            | dir es2 =>
              cases es2 with
              | nil => simp [Readdirnames, IsNotExist]
              | cons e2 es3 => simp [Readdirnames, IsNotExist]


/-- C9, at the initialised tree `demoFs`: no error occurs and the result is
`(true, nil)`. -/
theorem WasInited_spec_witness :
    (WasInited demoEnv demoFs ["lc"]).2 = (true, none) :=
  (WasInited_spec demoEnv demoFs ["lc"]).1 (by decide)

/-! ## `SignHeader`, `GenHeader` and the quorum check -/

/-- Comparing in the other order swaps the result. -/
theorem bytesCompare_swap : ∀ a b : Bytes, bytesCompare b a = (bytesCompare a b).swap
  | [], [] => rfl
  | [], _ :: _ => rfl
  | _ :: _, [] => rfl
  | x :: as, y :: bs => by
    have ih := bytesCompare_swap as bs
    simp only [bytesCompare]
    rcases Nat.lt_trichotomy x y with h | h | h
    · have h2 : ¬ y < x := by omega
      simp [h, h2, Ordering.swap]
    · subst h; simp [ih]
    · have h2 : ¬ x < y := by omega
      simp [h, h2, Ordering.swap]

/-- Byte strings compare equal exactly when they are equal. -/
theorem bytesCompare_eq_iff : ∀ a b : Bytes, bytesCompare a b = Ordering.eq ↔ a = b
  | [], [] => by simp [bytesCompare]
  | [], _ :: _ => by simp [bytesCompare]
  | _ :: _, [] => by simp [bytesCompare]
  | x :: as, y :: bs => by
    have ih := bytesCompare_eq_iff as bs
    simp only [bytesCompare]
    rcases Nat.lt_trichotomy x y with h | h | h
    · have : x ≠ y := by omega
      simp [h, this]
    · subst h; simp [ih]
    · have h2 : ¬ x < y := by omega
      have : x ≠ y := by omega
      simp [h, h2, this]

/-- The byte order is antisymmetric. -/
theorem bytesCompare_antisymm (a b : Bytes) (h1 : bytesCompare a b ≠ Ordering.gt)
    (h2 : bytesCompare b a ≠ Ordering.gt) : a = b := by
  rw [bytesCompare_swap a b] at h2
  apply (bytesCompare_eq_iff a b).1
  cases h : bytesCompare a b <;> simp_all [Ordering.swap]

/-- The byte order is total. -/
theorem bytesCompare_total (a b : Bytes) :
    bytesCompare a b ≠ Ordering.gt ∨ bytesCompare b a ≠ Ordering.gt := by
  rw [bytesCompare_swap a b]
  cases h : bytesCompare a b <;> simp [Ordering.swap]

/-- The byte order is transitive. -/
theorem bytesCompare_trans : ∀ a b c : Bytes, bytesCompare a b ≠ Ordering.gt →
    bytesCompare b c ≠ Ordering.gt → bytesCompare a c ≠ Ordering.gt
  | [], _, [] => by simp [bytesCompare]
  | [], _, _ :: _ => by simp [bytesCompare]
  | _ :: _, [], _ => by simp [bytesCompare]
  | _ :: _, _ :: _, [] => by simp [bytesCompare]
  | x :: as, y :: bs, z :: cs => by
    have ih := bytesCompare_trans as bs cs
    simp only [bytesCompare]
    intro h1 h2
    rcases Nat.lt_trichotomy x y with hxy | hxy | hxy
    · rcases Nat.lt_trichotomy y z with hyz | hyz | hyz
      · have : x < z := by omega
        simp [this]
      · have : x < z := by omega
        simp [this]
      · have : ¬ y < z := by omega
        simp [hyz, this] at h2
    · subst hxy
      rcases Nat.lt_trichotomy x z with hyz | hyz | hyz
      · simp [hyz]
      · subst hyz
        simp only [lt_self_iff_false, if_false] at h1 h2 ⊢
        exact ih h1 h2
      · have : ¬ x < z := by omega
        simp [hyz, this] at h2
    · have : ¬ x < y := by omega
      simp [hxy, this] at h1

/-- A validator set is in ascending address order. -/
theorem sorted_newValidatorSet (vals : List Validator) :
    (NewValidatorSet vals).Validators.Sorted addrLE := by
  haveI : IsTotal Validator addrLE := ⟨fun a b => bytesCompare_total a.Address b.Address⟩
  haveI : IsTrans Validator addrLE :=
    ⟨fun a b c => bytesCompare_trans a.Address b.Address c.Address⟩
  exact List.sorted_insertionSort addrLE vals

/-- A validator set holds exactly the validators it was built from. -/
theorem perm_newValidatorSet (vals : List Validator) :
    (NewValidatorSet vals).Validators.Perm vals :=
  List.perm_insertionSort addrLE vals

/-- The addresses of the validators of a key list are the addresses of the keys,
in order. -/
theorem toValidatorsFrom_map_address (d : Deps) (init inc : Int) :
    ∀ (i : Nat) (ks : List Bytes),
      (toValidatorsFrom d init inc i ks).map Validator.Address =
        ks.map (fun k => d.address (d.pubKey k))
  | _, [] => rfl
  | i, k :: ks => by
    simp [toValidatorsFrom, NewValidator, toValidatorsFrom_map_address d init inc (i + 1) ks]

/-- The addresses of `ToValidators`, whatever the powers. -/
theorem toValidators_map_address (d : Deps) (v : ValKeys) (init inc : Int) :
    (v.ToValidators d init inc).map Validator.Address =
      v.map (fun k => d.address (d.pubKey k)) :=
  toValidatorsFrom_map_address d init inc 0 v

/-- One validator per key. -/
theorem toValidatorsFrom_length (d : Deps) (init inc : Int) :
    ∀ (i : Nat) (ks : List Bytes), (toValidatorsFrom d init inc i ks).length = ks.length
  | _, [] => rfl
  | i, k :: ks => by simp [toValidatorsFrom, toValidatorsFrom_length d init inc (i + 1) ks]

/-- `ToValidators` gives one validator per key. -/
theorem toValidators_length (d : Deps) (v : ValKeys) (init inc : Int) :
    (v.ToValidators d init inc).length = v.length :=
  toValidatorsFrom_length d init inc 0 v

/-- A validator set has as many members as it was built from. -/
theorem newValidatorSet_length (vals : List Validator) :
    (NewValidatorSet vals).Validators.length = vals.length :=
  List.length_insertionSort addrLE vals

/-- The addresses of a validator set are the sorted addresses of its members. -/
theorem newValidatorSet_map_address (vals : List Validator) :
    (NewValidatorSet vals).Validators.map Validator.Address =
      (vals.map Validator.Address).insertionSort
        (fun a b : Bytes => bytesCompare a b ≠ Ordering.gt) :=
  List.map_insertionSort addrLE (fun a b : Bytes => bytesCompare a b ≠ Ordering.gt)
    Validator.Address vals (fun _ _ _ _ => Iff.rfl)

/-- The order of the addresses in the set does not depend on the powers. -/
theorem newValidatorSet_address_order (d : Deps) (v : ValKeys) (init inc : Int) :
    (NewValidatorSet (v.ToValidators d init inc)).Validators.map Validator.Address =
      (NewValidatorSet (v.ToValidators d 1 0)).Validators.map Validator.Address := by
  rw [newValidatorSet_map_address, newValidatorSet_map_address, toValidators_map_address,
    toValidators_map_address]

/-- The index `GetByAddress` returns is zero or a valid index. -/
theorem getByAddress_bounds (vs : ValidatorSet) (addr : Bytes) :
    0 ≤ (vs.GetByAddress addr).1 ∧
      ((vs.GetByAddress addr).1 = 0 ∨ (vs.GetByAddress addr).1 < vs.Validators.length) := by
  unfold ValidatorSet.GetByAddress
  simp only
  cases h : vs.Validators.get? (vs.Validators.findIdx
      (fun val => decide (bytesCompare addr val.Address ≠ Ordering.gt))) with
  | none => simp
  | some val =>
    have hlt := (List.get?_eq_some.1 h).1
    by_cases hv : val.Address = addr
    · simp only [hv, if_true]
      exact ⟨Int.ofNat_nonneg _, Or.inr (by exact_mod_cast hlt)⟩
    · simp [hv]

/-- In an address-ordered set, the search for the address of a member finds an
index holding that address. -/
theorem getByAddress_of_mem (vs : ValidatorSet) (hs : vs.Validators.Sorted addrLE)
    (val : Validator) (hmem : val ∈ vs.Validators) :
    ∃ p, ∃ hp : p < vs.Validators.length, (vs.GetByAddress val.Address).1 = (p : Int) ∧
      (vs.Validators.get ⟨p, hp⟩).Address = val.Address := by
  obtain ⟨q, hq, hqv⟩ := List.getElem_of_mem hmem
  set pr : Validator → Bool :=
    fun x => decide (bytesCompare val.Address x.Address ≠ Ordering.gt) with hpr
  have hex : ∃ x ∈ vs.Validators, pr x = true :=
    ⟨val, hmem, by simp [hpr, (bytesCompare_eq_iff val.Address val.Address).2 rfl]⟩
  have hp : vs.Validators.findIdx pr < vs.Validators.length :=
    List.findIdx_lt_length_of_exists hex
  have hpp : pr (vs.Validators.get ⟨vs.Validators.findIdx pr, hp⟩) = true :=
    List.findIdx_getElem
  have hle : vs.Validators.findIdx pr ≤ q := by
    by_contra hlt
    have := @List.not_of_lt_findIdx _ pr vs.Validators q (not_le.1 hlt)
    rw [hqv] at this
    simp [hpr, (bytesCompare_eq_iff val.Address val.Address).2 rfl] at this
  have hrel : addrLE (vs.Validators.get ⟨vs.Validators.findIdx pr, hp⟩) val := by
    rcases Nat.eq_or_lt_of_le hle with heq | hlt
    · have : vs.Validators.get ⟨vs.Validators.findIdx pr, hp⟩ = val := by
        rw [← hqv]; simp [List.get_eq_getElem, heq]
      rw [this]
      simp [addrLE, (bytesCompare_eq_iff val.Address val.Address).2 rfl]
    · have := @List.Sorted.rel_get_of_lt _ addrLE _ hs ⟨vs.Validators.findIdx pr, hp⟩ ⟨q, hq⟩ hlt
      simpa [List.get_eq_getElem, hqv] using this
  have haddr : (vs.Validators.get ⟨vs.Validators.findIdx pr, hp⟩).Address = val.Address :=
    bytesCompare_antisymm _ _ hrel (by simpa [hpr] using hpp)
  refine ⟨vs.Validators.findIdx pr, hp, ?_, haddr⟩
  unfold ValidatorSet.GetByAddress
  simp only
  rw [← hpr, List.get?_eq_get hp]
  simp only [haddr, if_true]

/-- Writing a vote keeps the number of slots. -/
theorem placeVote_length (d : Deps) (header : Header) (vset : ValidatorSet)
    (votes : List (Option Vote)) (key : Bytes) :
    (placeVote d header vset votes key).length = votes.length := by
  simp [placeVote]

/-- Writing votes keeps the number of slots. -/
theorem foldl_placeVote_length (d : Deps) (header : Header) (vset : ValidatorSet) :
    ∀ (ks : List Bytes) (votes : List (Option Vote)),
      (ks.foldl (placeVote d header vset) votes).length = votes.length
  | [], _ => rfl
  | k :: ks, votes => by
    rw [List.foldl_cons, foldl_placeVote_length d header vset ks, placeVote_length]

/-- The validator index of the vote `makeVote` builds. -/
theorem makeVote_index (d : Deps) (header : Header) (vset : ValidatorSet) (key : Bytes) :
    (makeVote d header vset key).ValidatorIndex =
      (vset.GetByAddress (d.address (d.pubKey key))).1 := rfl

/-- Within the range of the keys the loop of `SignHeader` returns, and its
result is the fold of `placeVote` over the keys `v[a], ..., v[a+n-1]`. -/
theorem signLoop_eq_foldl (d : Deps) (header : Header) (vset : ValidatorSet) (v : ValKeys)
    (hlen : vset.Validators.length = v.length) :
    ∀ (n a : Nat) (votes : List (Option Vote)), votes.length = v.length →
      a + n ≤ v.length →
      signLoop d header vset v n (a : Int) votes =
        some (((v.drop a).take n).foldl (placeVote d header vset) votes) := by
  intro n
  induction n with
  | zero => intro a votes _ _; simp [signLoop]
  | succ n ih =>
    intro a votes hv ha
    have halt : a < v.length := by omega
    have hb := getByAddress_bounds vset (d.address (d.pubKey (v.get ⟨a, halt⟩)))
    have hc1 : ¬ (((a : Int) < 0) ∨ ((v.length : Int) ≤ (a : Int))) := by
      push_neg; constructor <;> omega
    have hget : v.get? (a : Int).toNat = some (v.get ⟨a, halt⟩) := by
      simp [List.getElem?_eq_getElem halt]
    have hc2 : ¬ ((makeVote d header vset (v.get ⟨a, halt⟩)).ValidatorIndex < 0 ∨
        (votes.length : Int) ≤ (makeVote d header vset (v.get ⟨a, halt⟩)).ValidatorIndex) := by
      rw [makeVote_index]
      push_neg
      refine ⟨hb.1, ?_⟩
      rcases hb.2 with h | h
      · rw [h]; omega
      · rw [hlen] at h; omega
    rw [signLoop]
    simp only [hc1, if_false, hget]
    simp only [hc2, if_false]
    have hstep : (a : Int) + 1 = ((a + 1 : Nat) : Int) := by push_cast; rfl
    rw [hstep, ih (a + 1) _ (by simp [hv]) (by omega)]
    have hdrop : v.drop a = v.get ⟨a, halt⟩ :: v.drop (a + 1) :=
      List.drop_eq_getElem_cons halt
    rw [hdrop, List.take_succ_cons, List.foldl_cons]
    rfl

/-- Outside the range of the keys the loop of `SignHeader` panics. -/
theorem signLoop_none_of_gt (d : Deps) (header : Header) (vset : ValidatorSet) (v : ValKeys) :
    ∀ (n a : Nat) (votes : List (Option Vote)), 0 < n → v.length < a + n →
      signLoop d header vset v n (a : Int) votes = none := by
  intro n
  induction n with
  | zero => intro a votes h; omega
  | succ n ih =>
    intro a votes _ ha
    rw [signLoop]
    by_cases hlt : a < v.length
    · have hc1 : ¬ (((a : Int) < 0) ∨ ((v.length : Int) ≤ (a : Int))) := by
        push_neg; constructor <;> omega
      simp only [hc1, if_false]
      cases hget : v.get? (a : Int).toNat with
      | none => rfl
      | some key =>
        simp only
        split_ifs
        · rfl
        · have hstep : (a : Int) + 1 = ((a + 1 : Nat) : Int) := by push_cast; rfl
          rw [hstep]
          exact ih (a + 1) _ (by omega) (by omega)
    · have hc1 : ((a : Int) < 0) ∨ ((v.length : Int) ≤ (a : Int)) := by
        right; omega
      rw [if_pos hc1]

/-- A loop that starts below zero panics at once. -/
theorem signLoop_none_of_neg (d : Deps) (header : Header) (vset : ValidatorSet) (v : ValKeys)
    (n : Nat) (i : Int) (votes : List (Option Vote)) (hn : 0 < n) (hi : i < 0) :
    signLoop d header vset v n i votes = none := by
  cases n with
  | zero => omega
  | succ n => rw [signLoop]; simp [hi]

/-- `SignHeader` returns exactly when the range is empty or lies within the
keys, and then its votes are the fold of `placeVote` over `v[first..last)`. -/
theorem signHeader_eq (d : Deps) (v : ValKeys) (header : Header) (first last : Int)
    (h : last ≤ first ∨ (0 ≤ first ∧ last ≤ v.length)) :
    v.SignHeader d header first last =
      some { BlockID := { Hash := d.headerHash header }
             Precommits := ((v.drop first.toNat).take (last - first).toNat).foldl
               (placeVote d header (NewValidatorSet (v.ToValidators d 1 0)))
               (List.replicate v.length none) } := by
  unfold ValKeys.SignHeader
  simp only
  by_cases hle : last ≤ first
  · have : (last - first).toNat = 0 := by omega
    simp [this, signLoop]
  · have h' : 0 ≤ first ∧ last ≤ v.length := by
      rcases h with h | h
      · exact absurd h hle
      · exact h
    have hf : first = ((first.toNat : Nat) : Int) := by omega
    have hl := signLoop_eq_foldl d header (NewValidatorSet (v.ToValidators d 1 0)) v
      (by rw [newValidatorSet_length, toValidators_length]) (last - first).toNat first.toNat
      (List.replicate v.length none) (by simp) (by omega)
    rw [← hf] at hl
    rw [hl]

/-- `SignHeader` panics when the range is non-empty and leaves the keys. -/
theorem signHeader_none (d : Deps) (v : ValKeys) (header : Header) (first last : Int)
    (h : ¬ (last ≤ first ∨ (0 ≤ first ∧ last ≤ v.length))) :
    v.SignHeader d header first last = none := by
  push_neg at h
  unfold ValKeys.SignHeader
  simp only
  have hn : 0 < (last - first).toNat := by omega
  by_cases h0 : 0 ≤ first
  · have hf : first = ((first.toNat : Nat) : Int) := by omega
    have := signLoop_none_of_gt d header (NewValidatorSet (v.ToValidators d 1 0)) v
      (last - first).toNat first.toNat (List.replicate v.length none) hn
      (by have := h.2 h0; omega)
    rw [← hf] at this
    rw [this]
  · rw [signLoop_none_of_neg d header _ v _ first _ hn (by omega)]

/-- The votes after writing the votes of keys with pairwise distinct slots: a slot holds the vote of the key whose slot it is, and is unchanged when there is none. -/
theorem foldl_placeVote_getElem (d : Deps) (header : Header) (vset : ValidatorSet) :
    ∀ (ks : List Bytes) (votes : List (Option Vote)),
      (ks.map (fun k => (makeVote d header vset k).ValidatorIndex.toNat)).Nodup →
      (∀ k ∈ ks, (makeVote d header vset k).ValidatorIndex.toNat < votes.length) →
      ∀ s, (ks.foldl (placeVote d header vset) votes)[s]? =
        match ks.find? (fun k => decide ((makeVote d header vset k).ValidatorIndex.toNat = s)) with
        | some k => some (some (makeVote d header vset k))
        | none => votes[s]? := by
  intro ks
  induction ks with
  | nil => intro votes _ _ s; simp
  | cons k ks ih =>
    intro votes hnd hlt s
    rw [List.map_cons, List.nodup_cons] at hnd
    have hlt' : ∀ k' ∈ ks, (makeVote d header vset k').ValidatorIndex.toNat <
        (placeVote d header vset votes k).length := by
      intro k' hk'
      rw [placeVote_length]
      exact hlt k' (List.mem_cons_of_mem _ hk')
    rw [List.foldl_cons, ih _ hnd.2 hlt' s]
    by_cases hks : (makeVote d header vset k).ValidatorIndex.toNat = s
    · have hnone : ks.find? (fun k => decide ((makeVote d header vset k).ValidatorIndex.toNat = s))
          = none := by
        rw [List.find?_eq_none]
        intro x hx hxs
        apply hnd.1
        rw [List.mem_map]
        exact ⟨x, hx, by rw [hks]; simpa using hxs⟩
      rw [hnone, List.find?_cons_of_pos _ (by simpa using hks)]
      simp only [placeVote]
      rw [hks, List.getElem?_set_self (by rw [← hks]; exact hlt k (List.mem_cons_self _ _))]
    · rw [List.find?_cons_of_neg _ (by simpa using hks)]
      cases hf : ks.find? (fun k => decide ((makeVote d header vset k).ValidatorIndex.toNat = s)) with
      | some k' => rfl
      | none =>
        simp only [placeVote]
        rw [List.getElem?_set_ne hks]

/-- Filling an empty slot adds one present vote. -/
theorem countP_set_of_none : ∀ (l : List (Option Vote)) (p : Nat) (x : Vote),
    l[p]? = some none → (l.set p (some x)).countP Option.isSome = l.countP Option.isSome + 1
  | [], p, x, h => by simp at h
  | a :: l, 0, x, h => by
    simp at h
    subst h
    simp [List.countP_cons]
  | a :: l, p + 1, x, h => by
    simp at h
    simp only [List.set_cons_succ, List.countP_cons]
    rw [countP_set_of_none l p x h]
    omega

/-- Writing the votes of keys with pairwise distinct, empty slots adds one present vote per key. -/
theorem foldl_placeVote_countP (d : Deps) (header : Header) (vset : ValidatorSet) :
    ∀ (ks : List Bytes) (votes : List (Option Vote)),
      (ks.map (fun k => (makeVote d header vset k).ValidatorIndex.toNat)).Nodup →
      (∀ k ∈ ks, votes[(makeVote d header vset k).ValidatorIndex.toNat]? = some none) →
      (ks.foldl (placeVote d header vset) votes).countP Option.isSome =
        votes.countP Option.isSome + ks.length := by
  intro ks
  induction ks with
  | nil => intro votes _ _; simp
  | cons k ks ih =>
    intro votes hnd hnone
    rw [List.map_cons, List.nodup_cons] at hnd
    rw [List.foldl_cons, ih _ hnd.2]
    · simp only [placeVote]
      rw [countP_set_of_none _ _ _ (hnone k (List.mem_cons_self _ _))]
      simp only [List.length_cons]
      omega
    · intro k' hk'
      simp only [placeVote]
      have hne : (makeVote d header vset k).ValidatorIndex.toNat ≠
          (makeVote d header vset k').ValidatorIndex.toNat := by
        intro heq
        apply hnd.1
        rw [List.mem_map]
        exact ⟨k', hk', heq.symm⟩
      rw [List.getElem?_set_ne hne]
      exact hnone k' (List.mem_cons_of_mem _ hk')

/-- Every validator of `ToValidators` is the validator of a key of the list. -/
theorem mem_toValidatorsFrom (d : Deps) (init inc : Int) :
    ∀ (i : Nat) (ks : List Bytes) (val : Validator),
      val ∈ toValidatorsFrom d init inc i ks →
        ∃ k ∈ ks, val.PubKey = d.pubKey k ∧ val.Address = d.keyAddress k
  | _, [], val, h => by simp [toValidatorsFrom] at h
  | i, k :: ks, val, h => by
    simp only [toValidatorsFrom, List.mem_cons] at h
    rcases h with h | h
    · exact ⟨k, List.mem_cons_self _ _, by rw [h]; exact ⟨rfl, rfl⟩⟩
    · obtain ⟨k', hk', hp⟩ := mem_toValidatorsFrom d init inc (i + 1) ks val h
      exact ⟨k', List.mem_cons_of_mem _ hk', hp⟩

/-- Every key of the list has its validator in `ToValidators`. -/
theorem exists_mem_toValidators (d : Deps) (v : ValKeys) (init inc : Int) (k : Bytes)
    (hk : k ∈ v) : ∃ val ∈ v.ToValidators d init inc, val.Address = d.keyAddress k := by
  have : d.keyAddress k ∈ (v.ToValidators d init inc).map Validator.Address := by
    rw [toValidators_map_address]
    exact List.mem_map.2 ⟨k, hk, rfl⟩
  obtain ⟨val, hval, hv⟩ := List.mem_map.1 this
  exact ⟨val, hval, hv⟩

/-- The slot `makeVote` picks for a key of the list: an index of the set that
holds the key's address. -/
theorem slot_of_key (d : Deps) (v : ValKeys) (header : Header) (init inc : Int) (k : Bytes)
    (hk : k ∈ v) :
    ∃ p, ∃ hp : p < (NewValidatorSet (v.ToValidators d init inc)).Validators.length,
      (makeVote d header (NewValidatorSet (v.ToValidators d init inc)) k).ValidatorIndex = (p : Int) ∧
      ((NewValidatorSet (v.ToValidators d init inc)).Validators.get ⟨p, hp⟩).Address =
        d.keyAddress k := by
  obtain ⟨val, hval, hv⟩ := exists_mem_toValidators d v init inc k hk
  have hmem : val ∈ (NewValidatorSet (v.ToValidators d init inc)).Validators :=
    (perm_newValidatorSet _).mem_iff.2 hval
  obtain ⟨p, hp, h1, h2⟩ := getByAddress_of_mem _ (sorted_newValidatorSet _) val hmem
  refine ⟨p, hp, ?_, by rw [h2, hv]⟩
  rw [makeVote_index, ← h1, hv]
  rfl

/-- Keys with pairwise distinct addresses give a set with pairwise distinct addresses. -/
theorem nodup_set_addresses (d : Deps) (v : ValKeys) (init inc : Int)
    (hdist : (v.map d.keyAddress).Nodup) :
    ((NewValidatorSet (v.ToValidators d init inc)).Validators.map Validator.Address).Nodup := by
  have hperm := (perm_newValidatorSet (v.ToValidators d init inc)).map Validator.Address
  rw [hperm.nodup_iff, toValidators_map_address]
  exact hdist

/-- Membership in the slice `l[a .. a+n)` of a list without repetitions. -/
theorem mem_slice_iff {α : Type} (l : List α) (hnd : l.Nodup) (a n i : Nat) (hi : i < l.length)
    (han : a + n ≤ l.length) :
    l.get ⟨i, hi⟩ ∈ (l.drop a).take n ↔ a ≤ i ∧ i < a + n := by
  constructor
  · intro hmem
    obtain ⟨t, ht, hte⟩ := List.getElem_of_mem hmem
    have ht' : t < n ∧ a + t < l.length := by
      simp only [List.length_take, List.length_drop] at ht
      omega
    have hte' : l[a + t] = l[i] := by
      rw [List.get_eq_getElem] at hte
      rw [← hte]
      simp [List.getElem_take, List.getElem_drop]
    have := (@List.Nodup.getElem_inj_iff _ l hnd (a + t) ht'.2 i hi).1 hte'
    omega
  · rintro ⟨h1, h2⟩
    have hlen : i - a < ((l.drop a).take n).length := by
      simp only [List.length_take, List.length_drop]
      omega
    have : ((l.drop a).take n)[i - a] = l.get ⟨i, hi⟩ := by
      simp only [List.getElem_take, List.getElem_drop, List.get_eq_getElem]
      congr 1
      omega
    rw [← this]
    exact List.getElem_mem _

/-- The addresses of a slice of the keys are pairwise distinct. -/
theorem slice_map_nodup (d : Deps) (v : ValKeys) (a n : Nat)
    (hdist : (v.map d.keyAddress).Nodup) :
    (((v.drop a).take n).map d.keyAddress).Nodup :=
  List.Nodup.sublist (((List.take_sublist n _).trans (List.drop_sublist a v)).map _) hdist

/-- Keys of the list with the same slot have the same address. -/
theorem address_eq_of_slot_eq (d : Deps) (v : ValKeys) (header : Header) (k1 k2 : Bytes)
    (h1 : k1 ∈ v) (h2 : k2 ∈ v)
    (h : (makeVote d header (NewValidatorSet (v.ToValidators d 1 0)) k1).ValidatorIndex.toNat =
      (makeVote d header (NewValidatorSet (v.ToValidators d 1 0)) k2).ValidatorIndex.toNat) :
    d.keyAddress k1 = d.keyAddress k2 := by
  obtain ⟨p1, hp1, hi1, ha1⟩ := slot_of_key d v header 1 0 k1 h1
  obtain ⟨p2, hp2, hi2, ha2⟩ := slot_of_key d v header 1 0 k2 h2
  rw [hi1, hi2] at h
  simp only [Int.toNat_ofNat] at h
  subst h
  rw [← ha1, ← ha2]

/-- Keys of the list with pairwise distinct addresses have pairwise distinct slots. -/
theorem slots_nodup (d : Deps) (v : ValKeys) (header : Header) (ks : List Bytes)
    (hsub : ∀ k ∈ ks, k ∈ v) (hdist : (ks.map d.keyAddress).Nodup) :
    (ks.map (fun k =>
      (makeVote d header (NewValidatorSet (v.ToValidators d 1 0)) k).ValidatorIndex.toNat)).Nodup := by
  apply List.Nodup.map_on _ (List.Nodup.of_map _ hdist)
  intro x hx y hy hxy
  exact List.inj_on_of_nodup_map hdist hx hy
    (address_eq_of_slot_eq d v header x y (hsub x hx) (hsub y hy) hxy)

/-- A member of a slice is a member of the list. -/
theorem mem_of_mem_slice {α : Type} (l : List α) (a n : Nat) (x : α)
    (h : x ∈ (l.drop a).take n) : x ∈ l :=
  List.mem_of_mem_drop (List.mem_of_mem_take h)

/-- The slot of a key is the same in the set built with any powers. -/
theorem slot_same_order (d : Deps) (v : ValKeys) (init inc : Int) (k : Bytes) (hk : k ∈ v)
    (hdist : (v.map d.keyAddress).Nodup) :
    ((NewValidatorSet (v.ToValidators d init inc)).GetByAddress (d.keyAddress k)).1 =
      ((NewValidatorSet (v.ToValidators d 1 0)).GetByAddress (d.keyAddress k)).1 := by
  have hdr : Header := ⟨"", 0, 0, 0, ⟨[]⟩, [], [], [], []⟩
  obtain ⟨p, hp, hi, ha⟩ := slot_of_key d v hdr init inc k hk
  obtain ⟨q, hq, hj, hb⟩ := slot_of_key d v hdr 1 0 k hk
  rw [makeVote_index] at hi hj
  have hi' : ((NewValidatorSet (v.ToValidators d init inc)).GetByAddress (d.keyAddress k)).1 = p := hi
  have hj' : ((NewValidatorSet (v.ToValidators d 1 0)).GetByAddress (d.keyAddress k)).1 = q := hj
  rw [hi', hj']
  have hord := newValidatorSet_address_order d v init inc
  have hnd := nodup_set_addresses d v 1 0 hdist
  have e0 : ((NewValidatorSet (v.ToValidators d init inc)).Validators.map Validator.Address)[p]? =
      some (d.keyAddress k) := by
    rw [List.getElem?_map, List.getElem?_eq_getElem hp]
    exact congrArg some ha
  rw [hord] at e0
  obtain ⟨hp', e1⟩ := List.getElem?_eq_some.1 e0
  have hq' : q < ((NewValidatorSet (v.ToValidators d 1 0)).Validators.map Validator.Address).length := by
    rw [List.length_map]; exact hq
  have e2 : ((NewValidatorSet (v.ToValidators d 1 0)).Validators.map Validator.Address)[q] =
      d.keyAddress k := by
    rw [List.getElem_map]; exact hb
  have := (@List.Nodup.getElem_inj_iff _ _ hnd p hp' q hq').1 (e1.trans e2.symm)
  exact_mod_cast this

/-- C6 (amended): for every chainID, height, txs, appHash, key list `v`, powers
`(init, inc)` and every range `first..last` that is empty (`last <= first`) or
lies within the keys (`0 <= first` and `last <= len(v)`): `SignHeader` returns
a commit, and the seed assembled from `GenHeader`, that commit and the
validator set satisfies the three structural invariants: the header's chain id
is `chainID`, the commit's block id hash is the hash of the header, and the
header's validators hash is the hash of the validator set. -/
theorem genHeader_signHeader_invariants (d : Deps) (now : Nat) (chainID : String) (height : Int)
    (txs : List Bytes) (appHash : Bytes) (v : ValKeys) (init inc first last : Int)
    (hrange : last ≤ first ∨ (0 ≤ first ∧ last ≤ (v.length : Int))) :
    ∃ commit,
      v.SignHeader d (GenHeader d now chainID height txs (v.ToValidators d init inc) appHash)
          first last = some commit ∧
        (GenHeader d now chainID height txs (v.ToValidators d init inc) appHash).ChainID =
          chainID ∧
        commit.BlockID.Hash =
          d.headerHash (GenHeader d now chainID height txs (v.ToValidators d init inc) appHash) ∧
        (GenHeader d now chainID height txs (v.ToValidators d init inc) appHash).ValidatorsHash =
          d.valSetHash (NewValidatorSet (v.ToValidators d init inc)) :=
  ⟨_, signHeader_eq d v _ first last hrange, rfl, rfl, rfl⟩

/-- C6, at the four keys `demoKeys` and the range `0..3`. -/
theorem genHeader_signHeader_invariants_witness :
    ∃ commit,
      demoKeys.SignHeader toyDeps
          (GenHeader toyDeps 7 "c" 5 [] (demoKeys.ToValidators toyDeps 1 0) []) 0 3 =
          some commit ∧
        (GenHeader toyDeps 7 "c" 5 [] (demoKeys.ToValidators toyDeps 1 0) []).ChainID = "c" ∧
        commit.BlockID.Hash =
          toyDeps.headerHash
            (GenHeader toyDeps 7 "c" 5 [] (demoKeys.ToValidators toyDeps 1 0) []) ∧
        (GenHeader toyDeps 7 "c" 5 [] (demoKeys.ToValidators toyDeps 1 0) []).ValidatorsHash =
          toyDeps.valSetHash (NewValidatorSet (demoKeys.ToValidators toyDeps 1 0)) :=
  genHeader_signHeader_invariants toyDeps 7 "c" 5 [] [] demoKeys 1 0 0 3
    (Or.inr ⟨by decide, by decide⟩)

/-- C6, refuted as stated: with four keys and the range `0..5` the loop of
`SignHeader` reads `v[4]` and panics, so no commit and no seed is assembled. -/
theorem signHeader_out_of_range_counterexample :
    demoKeys.SignHeader toyDeps
        (GenHeader toyDeps 7 "c" 5 [] (demoKeys.ToValidators toyDeps 1 0) []) 0 5 = none ∧
      ¬ ∃ commit,
        demoKeys.SignHeader toyDeps
            (GenHeader toyDeps 7 "c" 5 [] (demoKeys.ToValidators toyDeps 1 0) []) 0 5 =
            some commit ∧
          (GenHeader toyDeps 7 "c" 5 [] (demoKeys.ToValidators toyDeps 1 0) []).ChainID = "c" ∧
          commit.BlockID.Hash =
            toyDeps.headerHash
              (GenHeader toyDeps 7 "c" 5 [] (demoKeys.ToValidators toyDeps 1 0) []) ∧
          (GenHeader toyDeps 7 "c" 5 [] (demoKeys.ToValidators toyDeps 1 0) []).ValidatorsHash =
            toyDeps.valSetHash (NewValidatorSet (demoKeys.ToValidators toyDeps 1 0)) := by
  have hnone : demoKeys.SignHeader toyDeps
      (GenHeader toyDeps 7 "c" 5 [] (demoKeys.ToValidators toyDeps 1 0) []) 0 5 = none := by
    decide
  refine ⟨hnone, ?_⟩
  rintro ⟨commit, hc, _⟩
  rw [hnone] at hc
  cases hc

/-- The slot of a key of the list is a valid index. -/
theorem slot_lt (d : Deps) (v : ValKeys) (header : Header) (k : Bytes) (hk : k ∈ v) :
    (makeVote d header (NewValidatorSet (v.ToValidators d 1 0)) k).ValidatorIndex.toNat
      < v.length := by
  obtain ⟨p, hp, hi, _⟩ := slot_of_key d v header 1 0 k hk
  rw [hi]
  rw [newValidatorSet_length, toValidators_length] at hp
  simpa using hp

/-- The votes of `SignHeader` slot by slot: a slot holds the vote of the key
of the range whose slot it is, and is empty when there is none. -/
theorem signHeader_votes_getElem (d : Deps) (v : ValKeys) (header : Header) (a n : Nat)
    (hdist : (v.map d.keyAddress).Nodup) (s : Nat) :
    (((v.drop a).take n).foldl (placeVote d header (NewValidatorSet (v.ToValidators d 1 0)))
        (List.replicate v.length none))[s]? =
      match ((v.drop a).take n).find? (fun k => decide
        ((makeVote d header (NewValidatorSet (v.ToValidators d 1 0)) k).ValidatorIndex.toNat = s)) with
      | some k => some (some (makeVote d header (NewValidatorSet (v.ToValidators d 1 0)) k))
      | none => (List.replicate v.length (none : Option Vote))[s]? := by
  apply foldl_placeVote_getElem
  · exact slots_nodup d v header _ (fun k hk => mem_of_mem_slice v a n k hk)
      (slice_map_nodup d v a n hdist)
  · intro k hk
    rw [List.length_replicate]
    exact slot_lt d v header k (mem_of_mem_slice v a n k hk)

/-- C7: for every key list `v` with pairwise distinct addresses and every
`0 <= first <= last <= len(v)`: `SignHeader(header, first, last)` returns a
commit with exactly `len(v)` vote slots; the slot at the validator index of
key `v[i]` (in the set built with any powers) is a valid index and holds a
vote if and only if `first <= i < last`; exactly `last - first` slots are
present. That the function returns at all says that no index computed along
the way is out of range. -/
theorem signHeader_slots (d : Deps) (v : ValKeys) (header : Header) (init inc first last : Int)
    (hdist : (v.map d.keyAddress).Nodup)
    (h0 : 0 ≤ first) (h1 : first ≤ last) (h2 : last ≤ (v.length : Int)) :
    ∃ commit, v.SignHeader d header first last = some commit ∧
      commit.Precommits.length = v.length ∧
      commit.Precommits.countP Option.isSome = (last - first).toNat ∧
      ∀ (i : Nat) (hi : i < v.length),
        0 ≤ ((NewValidatorSet (v.ToValidators d init inc)).GetByAddress
          (d.keyAddress (v.get ⟨i, hi⟩))).1 ∧
        ((NewValidatorSet (v.ToValidators d init inc)).GetByAddress
          (d.keyAddress (v.get ⟨i, hi⟩))).1 < (v.length : Int) ∧
        ((∃ vote, commit.Precommits.get?
            ((NewValidatorSet (v.ToValidators d init inc)).GetByAddress
              (d.keyAddress (v.get ⟨i, hi⟩))).1.toNat = some (some vote)) ↔
          first ≤ (i : Int) ∧ (i : Int) < last) := by
  refine ⟨_, signHeader_eq d v header first last (Or.inr ⟨h0, h2⟩), ?_, ?_, ?_⟩
  · simp only [foldl_placeVote_length, List.length_replicate]
  · simp only
    rw [foldl_placeVote_countP]
    · simp only [List.length_take, List.length_drop]
      have : List.countP Option.isSome (List.replicate v.length (none : Option Vote)) = 0 := by
        rw [List.countP_eq_zero]
        intro x hx
        rw [List.eq_of_mem_replicate hx]
        simp
      rw [this]
      omega
    · exact slots_nodup d v header _ (fun k hk => mem_of_mem_slice v _ _ k hk)
        (slice_map_nodup d v _ _ hdist)
    · intro k hk
      rw [List.getElem?_replicate, if_pos (slot_lt d v header k (mem_of_mem_slice v _ _ k hk))]
  · intro i hi
    have hk : v.get ⟨i, hi⟩ ∈ v := List.get_mem v i hi
    rw [slot_same_order d v init inc _ hk hdist]
    obtain ⟨p, hp, hidx, haddr⟩ := slot_of_key d v header 1 0 _ hk
    rw [makeVote_index] at hidx
    have hidx' : ((NewValidatorSet (v.ToValidators d 1 0)).GetByAddress
        (d.keyAddress (v.get ⟨i, hi⟩))).1 = (p : Int) := hidx
    rw [newValidatorSet_length, toValidators_length] at hp
    rw [hidx']
    refine ⟨by omega, by omega, ?_⟩
    simp only [Int.toNat_ofNat, List.get?_eq_getElem?]
    rw [signHeader_votes_getElem d v header _ _ hdist p]
    have hpk : (makeVote d header (NewValidatorSet (v.ToValidators d 1 0))
        (v.get ⟨i, hi⟩)).ValidatorIndex.toNat = p := by
      rw [makeVote_index]
      show ((NewValidatorSet (v.ToValidators d 1 0)).GetByAddress
        (d.keyAddress (v.get ⟨i, hi⟩))).1.toNat = p
      rw [hidx']; simp
    have han : first.toNat + (last - first).toNat ≤ v.length := by omega
    constructor
    · rintro ⟨vote, hvote⟩
      cases hf : ((v.drop first.toNat).take (last - first).toNat).find? (fun k => decide
        ((makeVote d header (NewValidatorSet (v.ToValidators d 1 0)) k).ValidatorIndex.toNat = p)) with
      | none =>
        rw [hf] at hvote
        simp only [List.getElem?_replicate] at hvote
        split_ifs at hvote
        simp at hvote
      | some k =>
        have hkm := List.mem_of_find?_eq_some hf
        have hks := List.find?_some hf
        simp only [decide_eq_true_eq] at hks
        have haeq := address_eq_of_slot_eq d v header k (v.get ⟨i, hi⟩)
          (mem_of_mem_slice v _ _ k hkm) hk (hks.trans hpk.symm)
        have hmem : (v.map d.keyAddress).get ⟨i, by rw [List.length_map]; exact hi⟩ ∈
            ((v.map d.keyAddress).drop first.toNat).take (last - first).toNat := by
          rw [← List.map_drop, ← List.map_take, List.mem_map]
          exact ⟨k, hkm, by rw [haeq]; simp⟩
        have := (mem_slice_iff (v.map d.keyAddress) hdist first.toNat (last - first).toNat i
          (by rw [List.length_map]; exact hi) (by rw [List.length_map]; exact han)).1 hmem
        omega
    · rintro ⟨hf1, hf2⟩
      have hmem := (mem_slice_iff v (List.Nodup.of_map _ hdist) first.toNat
        (last - first).toNat i hi han).2 ⟨by omega, by omega⟩
      cases hf : ((v.drop first.toNat).take (last - first).toNat).find? (fun k => decide
        ((makeVote d header (NewValidatorSet (v.ToValidators d 1 0)) k).ValidatorIndex.toNat = p)) with
      | none =>
        exfalso
        rw [List.find?_eq_none] at hf
        exact hf _ hmem (by simpa using hpk)
      | some k => exact ⟨_, rfl⟩

/-- The validator at the slot of a key, in the set built with any powers, is the
validator of that key. -/
theorem validator_at_slot (d : Deps) (v : ValKeys) (header : Header) (init inc : Int)
    (k : Bytes) (hk : k ∈ v) (hdist : (v.map d.keyAddress).Nodup) :
    ∃ val, (NewValidatorSet (v.ToValidators d init inc)).Validators.get?
        (makeVote d header (NewValidatorSet (v.ToValidators d 1 0)) k).ValidatorIndex.toNat =
          some val ∧
      val.PubKey = d.pubKey k ∧ val.Address = d.keyAddress k ∧
      val ∈ v.ToValidators d init inc := by
  obtain ⟨p, hp, hidx, haddr⟩ := slot_of_key d v header init inc k hk
  have hsame := slot_same_order d v init inc k hk hdist
  rw [makeVote_index] at hidx ⊢
  have hidx' : ((NewValidatorSet (v.ToValidators d init inc)).GetByAddress
      (d.keyAddress k)).1 = (p : Int) := hidx
  have hslot : ((NewValidatorSet (v.ToValidators d 1 0)).GetByAddress
      (d.address (d.pubKey k))).1.toNat = p := by
    show ((NewValidatorSet (v.ToValidators d 1 0)).GetByAddress (d.keyAddress k)).1.toNat = p
    rw [← hsame, hidx']; simp
  rw [hslot]
  refine ⟨(NewValidatorSet (v.ToValidators d init inc)).Validators.get ⟨p, hp⟩,
    List.get?_eq_get hp, ?_, haddr, ?_⟩
  · have hmem : (NewValidatorSet (v.ToValidators d init inc)).Validators.get ⟨p, hp⟩ ∈
        v.ToValidators d init inc :=
      (perm_newValidatorSet _).mem_iff.1 (List.get_mem _ p hp)
    obtain ⟨k', hk', hpub, ha⟩ := mem_toValidatorsFrom d init inc 0 v _ hmem
    have : k' = k := List.inj_on_of_nodup_map hdist hk' hk (ha.symm.trans haddr)
    rw [hpub, this]
  · exact (perm_newValidatorSet _).mem_iff.1 (List.get_mem _ p hp)

/-- C7, at the four keys `demoKeys` and the range `0..3`. -/
theorem signHeader_slots_witness :
    ∃ commit, demoKeys.SignHeader toyDeps demoHeader 0 3 = some commit ∧
      commit.Precommits.length = demoKeys.length ∧
      commit.Precommits.countP Option.isSome = ((3 : Int) - 0).toNat ∧
      ∀ (i : Nat) (hi : i < demoKeys.length),
        0 ≤ ((NewValidatorSet (demoKeys.ToValidators toyDeps 5 2)).GetByAddress
          (toyDeps.keyAddress (demoKeys.get ⟨i, hi⟩))).1 ∧
        ((NewValidatorSet (demoKeys.ToValidators toyDeps 5 2)).GetByAddress
          (toyDeps.keyAddress (demoKeys.get ⟨i, hi⟩))).1 < (demoKeys.length : Int) ∧
        ((∃ vote, commit.Precommits.get?
            ((NewValidatorSet (demoKeys.ToValidators toyDeps 5 2)).GetByAddress
              (toyDeps.keyAddress (demoKeys.get ⟨i, hi⟩))).1.toNat = some (some vote)) ↔
          (0 : Int) ≤ (i : Int) ∧ (i : Int) < 3) :=
  signHeader_slots toyDeps demoKeys demoHeader 5 2 0 3 (by decide) (by decide) (by decide)
    (by decide)

/-- C8: for every key list `v` with pairwise distinct addresses, every powers
`(init, inc)` and every vote present at slot `i` of
`v.SignHeader(header, first, last)`: the vote's validator index is `i`, its
height is `header.Height`, its type is precommit, its block id is the hash of
`header`, and its signature verifies under the public key of validator `i` of
the set built from `v.ToValidators(init, inc)` over the canonical sign-bytes
for `header.ChainID` and that vote. Signing is assumed correct. -/
theorem signHeader_votes (d : Deps) (v : ValKeys) (header : Header) (init inc first last : Int)
    (commit : Commit) (i : Nat) (vote : Vote)
    (hdist : (v.map d.keyAddress).Nodup) (hsig : d.SignCorrect)
    (hc : v.SignHeader d header first last = some commit)
    (hv : commit.Precommits.get? i = some (some vote)) :
    vote.ValidatorIndex = (i : Int) ∧ vote.Height = header.Height ∧
      vote.VoteType = VoteTypePrecommit ∧ vote.BlockID = { Hash := d.headerHash header } ∧
      ∃ val, (NewValidatorSet (v.ToValidators d init inc)).Validators.get? i = some val ∧
        d.verifyBytes val.PubKey (SignBytes d header.ChainID vote) vote.Signature = true := by
  by_cases hr : last ≤ first ∨ (0 ≤ first ∧ last ≤ (v.length : Int))
  · rw [signHeader_eq d v header first last hr] at hc
    simp only [Option.some.injEq] at hc
    subst hc
    simp only [List.get?_eq_getElem?] at hv
    rw [signHeader_votes_getElem d v header _ _ hdist i] at hv
    cases hf : ((v.drop first.toNat).take (last - first).toNat).find? (fun k => decide
      ((makeVote d header (NewValidatorSet (v.ToValidators d 1 0)) k).ValidatorIndex.toNat = i)) with
    | none =>
      rw [hf] at hv
      simp only [List.getElem?_replicate] at hv
      split_ifs at hv
      simp at hv
    | some k =>
      rw [hf] at hv
      simp only [Option.some.injEq] at hv
      have hkm := mem_of_mem_slice v _ _ k (List.mem_of_find?_eq_some hf)
      have hks := List.find?_some hf
      simp only [decide_eq_true_eq] at hks
      obtain ⟨p, hp, hidx, _⟩ := slot_of_key d v header 1 0 k hkm
      have hpi : p = i := by
        rw [hidx] at hks
        simpa using hks
      obtain ⟨val, hval, hpub, _, _⟩ := validator_at_slot d v header init inc k hkm hdist
      rw [hks] at hval
      subst hv
      refine ⟨by rw [hidx, hpi], rfl, rfl, rfl, val, hval, ?_⟩
      rw [hpub]
      exact hsig k _
  · rw [signHeader_none d v header first last hr] at hc
    exact absurd hc (by simp)

/-- C8, at slot 2 of the commit of `demoKeys` over the range `0..3`, against the
set built with powers `5, 7, 9, 11`. -/
theorem signHeader_votes_witness :
    ∃ vote, (some (some vote) : Option (Option Vote)) =
        ((demoKeys.SignHeader toyDeps demoHeader 0 3).bind (fun c => c.Precommits.get? 2)) ∧
      vote.ValidatorIndex = 2 ∧ vote.Height = demoHeader.Height ∧
      vote.VoteType = VoteTypePrecommit ∧
      vote.BlockID = { Hash := toyDeps.headerHash demoHeader } ∧
      ∃ val, (NewValidatorSet (demoKeys.ToValidators toyDeps 5 2)).Validators.get? 2 = some val ∧
        toyDeps.verifyBytes val.PubKey (SignBytes toyDeps demoHeader.ChainID vote)
          vote.Signature = true :=
  ⟨makeVote toyDeps demoHeader (NewValidatorSet (demoKeys.ToValidators toyDeps 1 0)) [3],
    by decide,
    signHeader_votes toyDeps demoKeys demoHeader 5 2 0 3
      { BlockID := { Hash := toyDeps.headerHash demoHeader }
        Precommits :=
          [some (makeVote toyDeps demoHeader (NewValidatorSet (demoKeys.ToValidators toyDeps 1 0)) [1]),
           none,
           some (makeVote toyDeps demoHeader (NewValidatorSet (demoKeys.ToValidators toyDeps 1 0)) [3]),
           some (makeVote toyDeps demoHeader (NewValidatorSet (demoKeys.ToValidators toyDeps 1 0)) [4])] }
      2 _ (by decide) (by intro key msg; simp [toyDeps]) (by decide) (by decide)⟩

/-- The signed power as a sum over the validators, when every slot yields a
share that depends on its validator alone. -/
theorem signedPower_eq_sum (d : Deps) (chainID : String) (blockID : BlockID) (height : Int)
    (share : Validator → Int) :
    ∀ (vals : List Validator) (slots : List (Option Vote)) (i : Nat),
      vals.length = slots.length →
      (∀ (t : Nat) (val : Validator) (slot : Option Vote), vals[t]? = some val →
        slots[t]? = some slot →
        slotPower d chainID blockID height (i + t) val slot = share val) →
      signedPower d chainID blockID height i vals slots = (vals.map share).sum
  | [], _, _, _, _ => by simp [signedPower]
  | val :: vals, [], _, h, _ => by simp at h
  | val :: vals, slot :: slots, i, h, hs => by
    have h0 := hs 0 val slot (by simp) (by simp)
    have ih := signedPower_eq_sum d chainID blockID height share vals slots (i + 1)
      (by simpa using h) (by
        intro t val' slot' hv hsl
        have := hs (t + 1) val' slot' (by simpa using hv) (by simpa using hsl)
        rw [show i + (t + 1) = i + 1 + t by omega] at this
        exact this)
    simp only [Nat.add_zero] at h0
    simp only [signedPower, List.map_cons, List.sum_cons]
    rw [ih, h0]

/-- Validators that all signed bring their whole power. -/
theorem sum_signedShare_of_mem (signers : List Bytes) :
    ∀ l : List Validator, (∀ x ∈ l, x.Address ∈ signers) →
      (l.map (signedShare signers)).sum = (l.map Validator.VotingPower).sum
  | [], _ => rfl
  | x :: l, h => by
    rw [List.map_cons, List.map_cons, List.sum_cons, List.sum_cons,
      sum_signedShare_of_mem signers l (fun y hy => h y (List.mem_cons_of_mem _ hy))]
    simp [signedShare, h x (List.mem_cons_self _ _)]

/-- Validators that did not sign bring nothing. -/
theorem sum_signedShare_of_not_mem (signers : List Bytes) :
    ∀ l : List Validator, (∀ x ∈ l, x.Address ∉ signers) →
      (l.map (signedShare signers)).sum = 0
  | [], _ => rfl
  | x :: l, h => by
    rw [List.map_cons, List.sum_cons,
      sum_signedShare_of_not_mem signers l (fun y hy => h y (List.mem_cons_of_mem _ hy))]
    simp [signedShare, h x (List.mem_cons_self _ _)]

/-- Over the validators in key order, the shares of the signers `v[a .. a+n)`
add up to the powers of the validators of those keys. -/
theorem sum_signedShare_toValidators (d : Deps) (v : ValKeys) (init inc : Int) (a n : Nat)
    (hdist : (v.map d.keyAddress).Nodup) :
    ((v.ToValidators d init inc).map
        (signedShare (((v.drop a).take n).map d.keyAddress))).sum =
      ((((v.ToValidators d init inc).drop a).take n).map Validator.VotingPower).sum := by
  have hA := toValidators_map_address d v init inc
  have hsplit : v.ToValidators d init inc =
      (v.ToValidators d init inc).take a ++
        (((v.ToValidators d init inc).drop a).take n ++
          ((v.ToValidators d init inc).drop a).drop n) := by
    rw [List.take_append_drop, List.take_append_drop]
  have hsign : ((v.drop a).take n).map d.keyAddress =
      (((v.ToValidators d init inc).drop a).take n).map Validator.Address := by
    rw [List.map_take, List.map_drop, List.map_take, List.map_drop, hA]
    rfl
  have hnd : (((v.ToValidators d init inc).take a).map Validator.Address ++
      ((((v.ToValidators d init inc).drop a).take n).map Validator.Address ++
        (((v.ToValidators d init inc).drop a).drop n).map Validator.Address)).Nodup := by
    rw [← List.map_append, ← List.map_append, ← hsplit, hA]
    exact hdist
  have hd1 := List.disjoint_of_nodup_append hnd
  have hd2 := List.disjoint_of_nodup_append (List.nodup_append.1 hnd).2.1
  conv_lhs => rw [hsplit]
  rw [List.map_append, List.map_append, List.sum_append, List.sum_append, hsign]
  rw [sum_signedShare_of_not_mem _ ((v.ToValidators d init inc).take a)]
  · rw [sum_signedShare_of_mem _ (((v.ToValidators d init inc).drop a).take n)
      (fun x hx => List.mem_map.2 ⟨x, hx, rfl⟩)]
    rw [sum_signedShare_of_not_mem _ (((v.ToValidators d init inc).drop a).drop n)]
    · simp
    · intro x hx hmem
      exact hd2 hmem (List.mem_map.2 ⟨x, hx, rfl⟩)
  · intro x hx hmem
    exact hd1 (List.mem_map.2 ⟨x, hx, rfl⟩) (List.mem_append_left _ hmem)

/-- In a set with pairwise distinct addresses, two indices that hold the same
address are the same index. -/
theorem index_eq_of_address_eq (vs : ValidatorSet)
    (hnd : (vs.Validators.map Validator.Address).Nodup) (t q : Nat) (x y : Validator)
    (hx : vs.Validators[t]? = some x) (hy : vs.Validators[q]? = some y)
    (h : x.Address = y.Address) : t = q := by
  obtain ⟨ht, hxe⟩ := List.getElem?_eq_some.1 hx
  obtain ⟨hq, hye⟩ := List.getElem?_eq_some.1 hy
  have ht' : t < (vs.Validators.map Validator.Address).length := by
    rw [List.length_map]; exact ht
  have hq' : q < (vs.Validators.map Validator.Address).length := by
    rw [List.length_map]; exact hq
  apply (@List.Nodup.getElem_inj_iff _ _ hnd t ht' q hq').1
  rw [List.getElem_map, List.getElem_map, hxe, hye, h]

/-- The vote `makeVote` builds for a key counts at its slot against the
validator of that key. -/
theorem voteCounts_makeVote (d : Deps) (header : Header) (vset : ValidatorSet) (k : Bytes)
    (val : Validator) (t : Nat) (hsig : d.SignCorrect) (hpub : val.PubKey = d.pubKey k)
    (ht : (makeVote d header vset k).ValidatorIndex = (t : Int)) :
    voteCounts d header.ChainID { Hash := d.headerHash header } header.Height t val
      (makeVote d header vset k) = true := by
  unfold voteCounts
  rw [ht, hpub]
  simp only [decide_True, Bool.true_and]
  have h1 : (makeVote d header vset k).Height = header.Height := rfl
  have h2 : (makeVote d header vset k).BlockID = { Hash := d.headerHash header } := rfl
  rw [h1, h2]
  simp only [decide_True, Bool.true_and]
  exact hsig k _

/-- Each slot of the commit of `SignHeader` yields the share of its validator
in the set built with any powers. -/
theorem slot_share (d : Deps) (v : ValKeys) (header : Header) (init inc : Int) (a n : Nat)
    (hdist : (v.map d.keyAddress).Nodup) (hsig : d.SignCorrect)
    (t : Nat) (val : Validator) (slot : Option Vote)
    (hval : (NewValidatorSet (v.ToValidators d init inc)).Validators[t]? = some val)
    (hslot : (((v.drop a).take n).foldl
      (placeVote d header (NewValidatorSet (v.ToValidators d 1 0)))
      (List.replicate v.length none))[t]? = some slot) :
    slotPower d header.ChainID { Hash := d.headerHash header } header.Height (0 + t) val slot =
      signedShare (((v.drop a).take n).map d.keyAddress) val := by
  rw [signHeader_votes_getElem d v header a n hdist t] at hslot
  cases hf : ((v.drop a).take n).find? (fun k => decide
    ((makeVote d header (NewValidatorSet (v.ToValidators d 1 0)) k).ValidatorIndex.toNat = t)) with
  | some k =>
    rw [hf] at hslot
    simp only [Option.some.injEq] at hslot
    subst hslot
    have hkm := List.mem_of_find?_eq_some hf
    have hkv := mem_of_mem_slice v a n k hkm
    have hks := List.find?_some hf
    simp only [decide_eq_true_eq] at hks
    obtain ⟨val', hval', hpub, haddr, _⟩ := validator_at_slot d v header init inc k hkv hdist
    rw [hks, List.get?_eq_getElem?, hval] at hval'
    simp only [Option.some.injEq] at hval'
    subst hval'
    have hidx : (makeVote d header (NewValidatorSet (v.ToValidators d 1 0)) k).ValidatorIndex =
        (t : Int) := by
      have hb := (getByAddress_bounds (NewValidatorSet (v.ToValidators d 1 0))
        (d.address (d.pubKey k))).1
      rw [← makeVote_index d header] at hb
      omega
    simp only [Nat.zero_add, slotPower]
    rw [voteCounts_makeVote d header _ k val t hsig hpub hidx]
    simp only [if_true, signedShare]
    rw [if_pos]
    rw [haddr]
    exact List.mem_map.2 ⟨k, hkm, rfl⟩
  | none =>
    rw [hf] at hslot
    have hs : slot = none := by
      simp only [List.getElem?_replicate] at hslot
      split_ifs at hslot
      simpa using hslot.symm
    subst hs
    simp only [signedShare, slotPower]
    rw [if_neg]
    intro hmem
    obtain ⟨k, hkm, hka⟩ := List.mem_map.1 hmem
    have hkv := mem_of_mem_slice v a n k hkm
    obtain ⟨val', hval', _, haddr, _⟩ := validator_at_slot d v header init inc k hkv hdist
    rw [List.get?_eq_getElem?] at hval'
    have := index_eq_of_address_eq _ (nodup_set_addresses d v init inc hdist) _ _ _ _ hval hval'
      (by rw [haddr, hka])
    rw [List.find?_eq_none] at hf
    exact hf k hkm (by simpa using this.symm)

/-- The quorum check on the commit of `SignHeader`, for keys with pairwise
distinct addresses: it passes exactly when three times the power of the
signing validators exceeds twice the total power. -/
theorem verifyCommit_signHeader (d : Deps) (v : ValKeys) (header : Header)
    (init inc first last : Int)
    (hdist : (v.map d.keyAddress).Nodup) (hsig : d.SignCorrect)
    (h0 : 0 ≤ first) (h2 : last ≤ (v.length : Int)) :
    ∃ commit, v.SignHeader d header first last = some commit ∧
      (VerifyCommit d (NewValidatorSet (v.ToValidators d init inc)) header.ChainID
          { Hash := d.headerHash header } header.Height commit = Except.ok () ↔
        3 * ((((v.ToValidators d init inc).drop first.toNat).take
            (last - first).toNat).map Validator.VotingPower).sum >
          2 * ((v.ToValidators d init inc).map Validator.VotingPower).sum) := by
  refine ⟨_, signHeader_eq d v header first last (Or.inr ⟨h0, h2⟩), ?_⟩
  have hlen : (((v.drop first.toNat).take (last - first).toNat).foldl
      (placeVote d header (NewValidatorSet (v.ToValidators d 1 0)))
      (List.replicate v.length none)).length =
      (NewValidatorSet (v.ToValidators d init inc)).Validators.length := by
    rw [foldl_placeVote_length, List.length_replicate, newValidatorSet_length,
      toValidators_length]
  have hsigned := signedPower_eq_sum d header.ChainID { Hash := d.headerHash header }
    header.Height (signedShare (((v.drop first.toNat).take (last - first).toNat).map d.keyAddress))
    (NewValidatorSet (v.ToValidators d init inc)).Validators _ 0 hlen.symm
    (fun t val slot hval hslot =>
      slot_share d v header init inc _ _ hdist hsig t val slot hval hslot)
  have hperm := perm_newValidatorSet (v.ToValidators d init inc)
  rw [(hperm.map _).sum_eq, sum_signedShare_toValidators d v init inc _ _ hdist] at hsigned
  have htotal : (NewValidatorSet (v.ToValidators d init inc)).TotalVotingPower =
      ((v.ToValidators d init inc).map Validator.VotingPower).sum :=
    (hperm.map _).sum_eq
  unfold VerifyCommit
  simp only [hlen, ne_eq, not_true_eq_false, if_false, hsigned, htotal]
  split_ifs with hq
  · exact ⟨fun _ => hq, fun _ => rfl⟩
  · exact ⟨fun h => (by cases h), fun h => absurd h hq⟩

/-- Power `1 + i * 0` is 1 in `int64` arithmetic. -/
theorem wrapInt64_one (i : Nat) : wrapInt64 (1 + (i : Int) * 0) = 1 := by
  unfold wrapInt64
  norm_num

/-- With `init = 1` and `inc = 0` every validator has power 1. -/
theorem toValidatorsFrom_power_one (d : Deps) :
    ∀ (i : Nat) (ks : List Bytes),
      (toValidatorsFrom d 1 0 i ks).map Validator.VotingPower = List.replicate ks.length 1
  | _, [] => rfl
  | i, k :: ks => by
    rw [toValidatorsFrom, List.map_cons, List.length_cons, List.replicate_succ,
      toValidatorsFrom_power_one d (i + 1) ks]
    simp only [NewValidator, wrapInt64_one]

/-- The toy primitives sign correctly. -/
theorem toyDeps_signCorrect : toyDeps.SignCorrect := by
  intro key msg
  simp [toyDeps]

/-- C5 (amended): for every key list `v` with pairwise distinct addresses, every
power assignment `v.ToValidators(init, inc)` and every
`0 <= first <= last <= len(v)`: `SignHeader(header, first, last)` returns a
commit, and `VerifyCommit` of it against the validator set built from those
validators succeeds if and only if `3 * p > 2 * total`, where `p` is the sum of
the powers of the validators of the keys `v[first..last)` and `total` the sum
of all powers; in particular with 4 keys of power 1, `SignHeader(header, 0, 3)`
passes and `SignHeader(header, 0, 2)` fails. Signing is assumed correct. -/
theorem verifyCommit_quorum (d : Deps) (v : ValKeys) (header : Header)
    (init inc first last : Int)
    (hdist : (v.map d.keyAddress).Nodup) (hsig : d.SignCorrect)
    (h0 : 0 ≤ first) (h1 : first ≤ last) (h2 : last ≤ (v.length : Int)) :
    (∃ commit, v.SignHeader d header first last = some commit ∧
      (VerifyCommit d (NewValidatorSet (v.ToValidators d init inc)) header.ChainID
          { Hash := d.headerHash header } header.Height commit = Except.ok () ↔
        3 * ((((v.ToValidators d init inc).drop first.toNat).take
            (last - first).toNat).map Validator.VotingPower).sum >
          2 * ((v.ToValidators d init inc).map Validator.VotingPower).sum)) ∧
      (v.length = 4 →
        ∃ c3 c2, v.SignHeader d header 0 3 = some c3 ∧ v.SignHeader d header 0 2 = some c2 ∧
          VerifyCommit d (NewValidatorSet (v.ToValidators d 1 0)) header.ChainID
            { Hash := d.headerHash header } header.Height c3 = Except.ok () ∧
          VerifyCommit d (NewValidatorSet (v.ToValidators d 1 0)) header.ChainID
            { Hash := d.headerHash header } header.Height c2 ≠ Except.ok ()) := by
  have _ := h1
  refine ⟨verifyCommit_signHeader d v header init inc first last hdist hsig h0 h2, ?_⟩
  intro hlen
  obtain ⟨c3, hc3, hiff3⟩ := verifyCommit_signHeader d v header 1 0 0 3 hdist hsig
    (by omega) (by rw [hlen]; decide)
  obtain ⟨c2, hc2, hiff2⟩ := verifyCommit_signHeader d v header 1 0 0 2 hdist hsig
    (by omega) (by rw [hlen]; decide)
  have hpow : (v.ToValidators d 1 0).map Validator.VotingPower = List.replicate 4 1 := by
    rw [← hlen]
    exact toValidatorsFrom_power_one d 0 v
  rw [List.map_take, List.map_drop, hpow] at hiff3 hiff2
  refine ⟨c3, c2, hc3, hc2, hiff3.2 (by decide), ?_⟩
  intro hok
  exact absurd (hiff2.1 hok) (by decide)

/-- C5, at the four keys `demoKeys` with power 1 each and the range `0..3`. -/
theorem verifyCommit_quorum_witness :
    ∃ commit, demoKeys.SignHeader toyDeps demoHeader 0 3 = some commit ∧
      (VerifyCommit toyDeps (NewValidatorSet (demoKeys.ToValidators toyDeps 1 0))
          demoHeader.ChainID { Hash := toyDeps.headerHash demoHeader } demoHeader.Height
          commit = Except.ok () ↔
        3 * ((((demoKeys.ToValidators toyDeps 1 0).drop (0 : Int).toNat).take
            ((3 : Int) - 0).toNat).map Validator.VotingPower).sum >
          2 * ((demoKeys.ToValidators toyDeps 1 0).map Validator.VotingPower).sum) :=
  (verifyCommit_quorum toyDeps demoKeys demoHeader 1 0 0 3 (by decide) toyDeps_signCorrect
    (by decide) (by decide) (by decide)).1

/-- C5, refuted as stated: `twinKeys` are two distinct keys with non-negative
powers, yet the commit signed by both fails the quorum check (signed power 1
of 2) although `3 * p > 2 * total` for their combined power `p = 2`: both keys
have the same address, so both votes land in the same slot. -/
theorem verifyCommit_twin_keys_counterexample :
    twinKeys.Nodup ∧ (∀ val ∈ twinKeys.ToValidators toyDeps 1 0, 0 ≤ val.VotingPower) ∧
      (∃ commit, twinKeys.SignHeader toyDeps twinHeader 0 2 = some commit ∧
        VerifyCommit toyDeps (NewValidatorSet (twinKeys.ToValidators toyDeps 1 0))
          twinHeader.ChainID { Hash := toyDeps.headerHash twinHeader } twinHeader.Height
          commit = Except.error (VerifyError.InsufficientVotingPower 1 2)) ∧
      3 * ((((twinKeys.ToValidators toyDeps 1 0).drop (0 : Int).toNat).take
          ((2 : Int) - 0).toNat).map Validator.VotingPower).sum >
        2 * ((twinKeys.ToValidators toyDeps 1 0).map Validator.VotingPower).sum :=
  ⟨by decide, by decide, ⟨_, rfl, rfl⟩, by decide⟩

end LightClient
